import Mathlib

set_option maxHeartbeats 1000000

namespace DaftSplit

/-- Expression nodes of the logical-plan DSL.  Modelled from the spec:
the daft-dsl crate is not under the sources directory, so the six expression
kinds of the data model (spec section 3) are embedded directly.  Columns and
aliases carry names, scalar builtin functions carry an identifier (with a
distinguished identifier for the list_map builtin), UDFs carry an identifier
and arguments, and the remaining operator forms are grouped generically. -/
inductive Expr where
  | col (name : String)
  | lit (v : String)
  | alias (inner : Expr) (name : String)
  | scalarFn (fnId : String) (args : List Expr)
  | udf (fnId : String) (args : List Expr)
  | other (op : String) (args : List Expr)

mutual

/-- Decidable structural equality of expressions. -/
def exprDecEq : (a b : Expr) → Decidable (a = b)
  | .col a, .col b =>
    match decEq a b with
    | .isTrue h => .isTrue (by rw [h])
    | .isFalse h => .isFalse (by intro hh; injection hh; contradiction)
  | .lit a, .lit b =>
    match decEq a b with
    | .isTrue h => .isTrue (by rw [h])
    | .isFalse h => .isFalse (by intro hh; injection hh; contradiction)
  | .alias i1 n1, .alias i2 n2 =>
    match exprDecEq i1 i2, decEq n1 n2 with
    | .isTrue h1, .isTrue h2 => .isTrue (by rw [h1, h2])
    | .isFalse h1, _ => .isFalse (by intro hh; injection hh; contradiction)
    | _, .isFalse h2 => .isFalse (by intro hh; injection hh; contradiction)
  | .scalarFn f1 a1, .scalarFn f2 a2 =>
    match decEq f1 f2, exprListDecEq a1 a2 with
    | .isTrue h1, .isTrue h2 => .isTrue (by rw [h1, h2])
    | .isFalse h1, _ => .isFalse (by intro hh; injection hh; contradiction)
    | _, .isFalse h2 => .isFalse (by intro hh; injection hh; contradiction)
  | .udf f1 a1, .udf f2 a2 =>
    match decEq f1 f2, exprListDecEq a1 a2 with
    | .isTrue h1, .isTrue h2 => .isTrue (by rw [h1, h2])
    | .isFalse h1, _ => .isFalse (by intro hh; injection hh; contradiction)
    | _, .isFalse h2 => .isFalse (by intro hh; injection hh; contradiction)
  | .other f1 a1, .other f2 a2 =>
    match decEq f1 f2, exprListDecEq a1 a2 with
    | .isTrue h1, .isTrue h2 => .isTrue (by rw [h1, h2])
    | .isFalse h1, _ => .isFalse (by intro hh; injection hh; contradiction)
    | _, .isFalse h2 => .isFalse (by intro hh; injection hh; contradiction)
  | .col _, .lit _ => .isFalse fun h => Expr.noConfusion h
  | .col _, .alias _ _ => .isFalse fun h => Expr.noConfusion h
  | .col _, .scalarFn _ _ => .isFalse fun h => Expr.noConfusion h
  | .col _, .udf _ _ => .isFalse fun h => Expr.noConfusion h
  | .col _, .other _ _ => .isFalse fun h => Expr.noConfusion h
  | .lit _, .col _ => .isFalse fun h => Expr.noConfusion h
  | .lit _, .alias _ _ => .isFalse fun h => Expr.noConfusion h
  | .lit _, .scalarFn _ _ => .isFalse fun h => Expr.noConfusion h
  | .lit _, .udf _ _ => .isFalse fun h => Expr.noConfusion h
  | .lit _, .other _ _ => .isFalse fun h => Expr.noConfusion h
  | .alias _ _, .col _ => .isFalse fun h => Expr.noConfusion h
  | .alias _ _, .lit _ => .isFalse fun h => Expr.noConfusion h
  | .alias _ _, .scalarFn _ _ => .isFalse fun h => Expr.noConfusion h
  | .alias _ _, .udf _ _ => .isFalse fun h => Expr.noConfusion h
  | .alias _ _, .other _ _ => .isFalse fun h => Expr.noConfusion h
  | .scalarFn _ _, .col _ => .isFalse fun h => Expr.noConfusion h
  | .scalarFn _ _, .lit _ => .isFalse fun h => Expr.noConfusion h
  | .scalarFn _ _, .alias _ _ => .isFalse fun h => Expr.noConfusion h
  | .scalarFn _ _, .udf _ _ => .isFalse fun h => Expr.noConfusion h
  | .scalarFn _ _, .other _ _ => .isFalse fun h => Expr.noConfusion h
  | .udf _ _, .col _ => .isFalse fun h => Expr.noConfusion h
  | .udf _ _, .lit _ => .isFalse fun h => Expr.noConfusion h
  | .udf _ _, .alias _ _ => .isFalse fun h => Expr.noConfusion h
  | .udf _ _, .scalarFn _ _ => .isFalse fun h => Expr.noConfusion h
  | .udf _ _, .other _ _ => .isFalse fun h => Expr.noConfusion h
  | .other _ _, .col _ => .isFalse fun h => Expr.noConfusion h
  | .other _ _, .lit _ => .isFalse fun h => Expr.noConfusion h
  | .other _ _, .alias _ _ => .isFalse fun h => Expr.noConfusion h
  | .other _ _, .scalarFn _ _ => .isFalse fun h => Expr.noConfusion h
  | .other _ _, .udf _ _ => .isFalse fun h => Expr.noConfusion h
termination_by structural a => a

/-- Decidable structural equality of expression lists. -/
def exprListDecEq : (a b : List Expr) → Decidable (a = b)
  | [], [] => .isTrue rfl
  | [], _ :: _ => .isFalse (by intro h; cases h)
  | _ :: _, [] => .isFalse (by intro h; cases h)
  | a :: as, b :: bs =>
    match exprDecEq a b, exprListDecEq as bs with
    | .isTrue h1, .isTrue h2 => .isTrue (by rw [h1, h2])
    | .isFalse h1, _ => .isFalse (by intro hh; injection hh; contradiction)
    | _, .isFalse h2 => .isFalse (by intro hh; injection hh; contradiction)
termination_by structural a => a

end

instance : DecidableEq Expr := exprDecEq

/-- The stable identity of the distinguished list_map builtin
(daft-functions-list ListMap, detected by TypeId in the source). -/
def listMapId : String := "list_map"

/-- is_udf: true iff the root of the expression is a UDF.  Aliases are not
transparent (spec section 4.1; daft-dsl is_udf matches on the root variant). -/
def isUdf : Expr → Bool
  | .udf _ _ => true
  | _ => false

/-- is_list_map (split_udfs.rs lines 298-300): the node is the distinguished
builtin scalar function list_map. -/
def isListMapE : Expr → Bool
  | .scalarFn fnId _ => fnId == listMapId
  | _ => false

/-- Whether the root of the expression is an alias node. -/
def isAlias : Expr → Bool
  | .alias _ _ => true
  | _ => false

/-- Whether the expression is a bare column reference. -/
def isColExpr : Expr → Bool
  | .col _ => true
  | _ => false

/-- Remove the chain of aliases at the root of an expression. -/
def stripAlias : Expr → Expr
  | .alias inner _ => stripAlias inner
  | e => e

/-- Modelled from the spec (section 3): every expression carries a derived
name.  An alias supplies it, a column supplies its own name, a literal has a
deterministic default, and the remaining kinds take the name of their first
argument, falling back to their identifier. -/
def exprName : Expr → String
  | .col n => n
  | .lit _ => "literal"
  | .alias _ n => n
  | .scalarFn fnId args =>
    match args with
    | a :: _ => exprName a
    | [] => fnId
  | .udf fnId args =>
    match args with
    | a :: _ => exprName a
    | [] => fnId
  | .other op args =>
    match args with
    | a :: _ => exprName a
    | [] => op
termination_by structural e => e

/-- Modelled from the spec (section 4.1): requires_computation is false for
column and literal leaves and true otherwise (daft-dsl optimization helper,
not under the sources directory). -/
def requiresComputation : Expr → Bool
  | .col _ => false
  | .lit _ => false
  | _ => true

mutual

/-- Number of UDF nodes contained anywhere in an expression. -/
def countUdf : Expr → Nat
  | .col _ => 0
  | .lit _ => 0
  | .alias i _ => countUdf i
  | .scalarFn _ args => countUdfList args
  | .udf _ args => 1 + countUdfList args
  | .other _ args => countUdfList args
termination_by structural e => e

/-- Total UDF count of a list of expressions. -/
def countUdfList : List Expr → Nat
  | [] => 0
  | e :: es => countUdf e + countUdfList es
termination_by structural l => l

end

mutual

/-- TreeNode exists: plain pre-order search for a node satisfying the
predicate, with no special treatment of list_map (common-treenode is a
generic library with no knowledge of list_map). -/
def exprHas (f : Expr → Bool) (e : Expr) : Bool :=
  f e ||
    (match e with
     | .col _ => false
     | .lit _ => false
     | .alias i _ => exprHas f i
     | .scalarFn _ args => exprHasList f args
     | .udf _ args => exprHasList f args
     | .other _ args => exprHasList f args)
termination_by structural e

/-- Pre-order search over a list of expressions. -/
def exprHasList (f : Expr → Bool) : List Expr → Bool
  | [] => false
  | e :: es => exprHas f e || exprHasList f es
termination_by structural l => l

end

mutual

/-- Modelled from the spec (section 4.1): required_columns, the column names
referenced anywhere in the expression, in pre-order (daft-dsl
get_required_columns is not under the sources directory). -/
def getRequiredColumns : Expr → List String
  | .col n => [n]
  | .lit _ => []
  | .alias i _ => getRequiredColumns i
  | .scalarFn _ args => getRequiredColumnsList args
  | .udf _ args => getRequiredColumnsList args
  | .other _ args => getRequiredColumnsList args
termination_by structural e => e

/-- Column names referenced in a list of expressions, in order. -/
def getRequiredColumnsList : List Expr → List String
  | [] => []
  | e :: es => getRequiredColumns e ++ getRequiredColumnsList es
termination_by structural l => l

end

/-- Outcome of the pre-order walk of exists_skip_list_map: the predicate was
found (Stop with the found flag set), the walk was halted by a list_map node
(Stop without the flag), or the walk ran through the whole tree. -/
inductive ScanOut where
  | found
  | halted
  | through
deriving DecidableEq, Repr

mutual

/-- The apply closure of exists_skip_list_map (split_udfs.rs lines 302-316):
pre-order walk that returns TreeNodeRecursion.Stop at a list_map node and at
the first node satisfying the predicate.  Stop ends the entire traversal, so
a hit after the first list_map in pre-order is never seen. -/
def esScan (f : Expr → Bool) (e : Expr) : ScanOut :=
  if isListMapE e then .halted
  else if f e then .found
  else
    match e with
    | .col _ => .through
    | .lit _ => .through
    | .alias i _ => esScan f i
    | .scalarFn _ args => esScanList f args
    | .udf _ args => esScanList f args
    | .other _ args => esScanList f args
termination_by structural e

/-- Walk a list of children left to right, stopping at the first child whose
walk did not run through. -/
def esScanList (f : Expr → Bool) : List Expr → ScanOut
  | [] => .through
  | e :: es =>
    match esScan f e with
    | .through => esScanList f es
    | r => r
termination_by structural l => l

end

/-- exists_skip_list_map (split_udfs.rs lines 302-316): the walk found a node
satisfying the predicate before being halted. -/
def existsSkipListMap (f : Expr → Bool) (e : Expr) : Bool :=
  esScan f e == ScanOut.found

mutual

/-- Modelled from the spec (section 4.1): exists_skipping_list_map as the spec
words it, skipping only the subtree of each list_map node while continuing
to walk its siblings, true iff the predicate holds on some visited node. -/
def existsSkippingSpec (f : Expr → Bool) (e : Expr) : Bool :=
  if isListMapE e then false
  else
    f e ||
      (match e with
       | .col _ => false
       | .lit _ => false
       | .alias i _ => existsSkippingSpec f i
       | .scalarFn _ args => existsSkippingSpecList f args
       | .udf _ args => existsSkippingSpecList f args
       | .other _ args => existsSkippingSpecList f args)
termination_by structural e

/-- Subtree-skipping search over a list of expressions. -/
def existsSkippingSpecList (f : Expr → Bool) : List Expr → Bool
  | [] => false
  | e :: es => existsSkippingSpec f e || existsSkippingSpecList f es
termination_by structural l => l

end

/-- is_udf_and_should_truncate_children (split_udfs.rs lines 327-339): the
alias chain at the root terminates at a UDF.  The source phrases this with an
apply walk that continues through aliases and stops at the first other node. -/
def isUdfAndShouldTruncateChildren : Expr → Bool
  | .alias i _ => isUdfAndShouldTruncateChildren i
  | e => isUdf e

mutual

/-- All list_map-rooted subexpressions of an expression, in pre-order,
each taken as the whole subtree. -/
def exprLmSubtrees : Expr → List Expr
  | .col _ => []
  | .lit _ => []
  | .alias i _ => exprLmSubtrees i
  | .scalarFn fnId args =>
    (if fnId == listMapId then [Expr.scalarFn fnId args] else []) ++
      exprLmSubtreesList args
  | .udf _ args => exprLmSubtreesList args
  | .other _ args => exprLmSubtreesList args
termination_by structural e => e

/-- list_map-rooted subexpressions of a list of expressions. -/
def exprLmSubtreesList : List Expr → List Expr
  | [] => []
  | e :: es => exprLmSubtrees e ++ exprLmSubtreesList es
termination_by structural l => l

end

/-- State of the TruncateRootUDF rewriter (split_udfs.rs lines 132-146):
the collected new_children, plus the list of intermediate names generated by
this rewriter, in generation order (the names are observable output of the
pass, so the embedding records them alongside the rewriter state). -/
structure RootSt where
  newChildren : List Expr
  generated : List String

/-- State of the TruncateAnyUDFChildren rewriter (split_udfs.rs lines
150-166): collected new_children, the sticky is_list_map flag, and the
generated intermediate names in generation order. -/
structure AnySt where
  newChildren : List Expr
  isListMap : Bool
  generated : List String

/-- Intermediate name of a child lifted by TruncateRootUDF
(split_udfs.rs lines 205-208). -/
def rootIntermediateName (stageIdx exprIdx k : Nat) : String :=
  "__TruncateRootUDF_" ++ toString stageIdx ++ "-" ++ toString exprIdx ++
    "-" ++ toString k ++ "__"

/-- Intermediate name of a child lifted by TruncateAnyUDFChildren
(split_udfs.rs lines 276-279). -/
def anyIntermediateName (stageIdx exprIdx k : Nat) : String :=
  "__TruncateAnyUDFChildren_" ++ toString stageIdx ++ "-" ++ toString exprIdx ++
    "-" ++ toString k ++ "__"

/-- Column arm of TruncateRootUDF (split_udfs.rs lines 181-191): a resolved
column is pushed onto new_children unless some collected child already has
its name. -/
def rootColStep (n : String) (st : RootSt) : RootSt :=
  if (st.newChildren.map exprName).contains n then st
  else { st with newChildren := st.newChildren ++ [Expr.col n] }

/-- Column arm of TruncateAnyUDFChildren (split_udfs.rs lines 247-257),
identical bookkeeping to the root rewriter. -/
def anyColStep (n : String) (st : AnySt) : AnySt :=
  if (st.newChildren.map exprName).contains n then st
  else { st with newChildren := st.newChildren ++ [Expr.col n] }

/-- Visit of a bare column by TruncateAnyUDFChildren: the sticky-flag arm
takes priority over the column arm (split_udfs.rs lines 239-257). -/
def anyColVisit (n : String) (st : AnySt) : AnySt :=
  if st.isListMap then st else anyColStep n st

/-- The child-replacement map of the UDF arm of TruncateRootUDF
(split_udfs.rs lines 199-218): every argument that requires computation is
aliased to a fresh intermediate name, pushed onto new_children, and replaced
by a column; other arguments are kept.  The counter increments only when a
child is lifted. -/
def rootReplace (stageIdx exprIdx k : Nat) (args : List Expr) (st : RootSt) :
    List Expr × RootSt :=
  match args with
  | [] => ([], st)
  | c :: cs =>
    if requiresComputation c then
      let n := rootIntermediateName stageIdx exprIdx k
      let st1 : RootSt :=
        { st with
          newChildren := st.newChildren ++ [Expr.alias c n],
          generated := st.generated ++ [n] }
      let (rest, st2) := rootReplace stageIdx exprIdx (k + 1) cs st1
      (Expr.col n :: rest, st2)
    else
      let (rest, st2) := rootReplace stageIdx exprIdx k cs st
      (c :: rest, st2)

/-- The child-replacement map of the catch-all arm of TruncateAnyUDFChildren
(split_udfs.rs lines 266-292): every argument whose root is a UDF is aliased
to a fresh intermediate name, pushed onto new_children, and replaced by a
column.  The counter is a local of f_down, so it restarts at zero at every
tree node. -/
def anyReplace (stageIdx exprIdx k : Nat) (args : List Expr) (st : AnySt) :
    List Expr × AnySt :=
  match args with
  | [] => ([], st)
  | c :: cs =>
    if isUdf c then
      let n := anyIntermediateName stageIdx exprIdx k
      let st1 : AnySt :=
        { st with
          newChildren := st.newChildren ++ [Expr.alias c n],
          generated := st.generated ++ [n] }
      let (rest, st2) := anyReplace stageIdx exprIdx (k + 1) cs st1
      (Expr.col n :: rest, st2)
    else
      let (rest, st2) := anyReplace stageIdx exprIdx k cs st
      (c :: rest, st2)

mutual

/-- TruncateRootUDF (split_udfs.rs lines 175-226) fused with the generic
top-down rewrite driver: f_down is applied to the node and the rewrite then
descends into the children of the rewritten node.  Every arm of f_down
returns TreeNodeRecursion.Continue.  The list_map arm and the fall-through
arm are both no-ops that keep descending, so they share the constructor
cases below. -/
def truncRootVisit (stageIdx exprIdx : Nat) (e : Expr) (st : RootSt) :
    Expr × RootSt :=
  match e with
  | .col n => (.col n, rootColStep n st)
  | .lit v => (.lit v, st)
  | .alias inner nm =>
    let (inner2, st1) := truncRootVisit stageIdx exprIdx inner st
    (.alias inner2 nm, st1)
  | .scalarFn fnId args =>
    let (args2, st1) := truncRootList stageIdx exprIdx args st
    (.scalarFn fnId args2, st1)
  | .udf fnId args =>
    let (args1, st1) := rootReplace stageIdx exprIdx 0 args st
    let (args2, st2) := truncRootPairs stageIdx exprIdx args args1 st1
    (.udf fnId args2, st2)
  | .other op args =>
    let (args2, st1) := truncRootList stageIdx exprIdx args st
    (.other op args2, st1)
termination_by structural e

/-- Descent of the rewrite into an untouched child list. -/
def truncRootList (stageIdx exprIdx : Nat) (l : List Expr) (st : RootSt) :
    List Expr × RootSt :=
  match l with
  | [] => ([], st)
  | c :: cs =>
    let (c2, st1) := truncRootVisit stageIdx exprIdx c st
    let (cs2, st2) := truncRootList stageIdx exprIdx cs st1
    (c2 :: cs2, st2)
termination_by structural l

/-- Descent of the rewrite into the replaced child list of the UDF arm: a
lifted argument was replaced by a fresh column, whose visit runs the column
arm of f_down; a kept argument is visited in full. -/
def truncRootPairs (stageIdx exprIdx : Nat) (orig news : List Expr)
    (st : RootSt) : List Expr × RootSt :=
  match orig, news with
  | _, [] => ([], st)
  | [], _ :: _ => ([], st)
  | c :: cs, cN :: csN =>
    if requiresComputation c then
      let st1 := rootColStep (exprName cN) st
      let (rest, st2) := truncRootPairs stageIdx exprIdx cs csN st1
      (cN :: rest, st2)
    else
      let (c2, st1) := truncRootVisit stageIdx exprIdx c st
      let (rest, st2) := truncRootPairs stageIdx exprIdx cs csN st1
      (c2 :: rest, st2)
termination_by structural orig

end

mutual

/-- TruncateAnyUDFChildren (split_udfs.rs lines 235-296) fused with the
generic top-down rewrite driver.  The arm order of f_down is kept: the
sticky-flag no-op first, then the UDF error, the column arm, the list_map
arm that sets the flag, and the catch-all that replaces UDF children before
descending into the new children. -/
def truncAnyVisit (stageIdx exprIdx : Nat) (e : Expr) (st : AnySt) :
    Except String (Expr × AnySt) :=
  if st.isListMap then
    -- sticky-flag arm: f_down is a no-op here and the traversal descends;
    -- every deeper visit takes this same arm since the flag is never cleared
    match e with
    | .col n => .ok (.col n, st)
    | .lit v => .ok (.lit v, st)
    | .alias inner nm =>
      match truncAnyVisit stageIdx exprIdx inner st with
      | .error msg => .error msg
      | .ok (inner2, st1) => .ok (.alias inner2 nm, st1)
    | .scalarFn fnId args =>
      match truncAnyList stageIdx exprIdx args st with
      | .error msg => .error msg
      | .ok (args2, st1) => .ok (.scalarFn fnId args2, st1)
    | .udf fnId args =>
      match truncAnyList stageIdx exprIdx args st with
      | .error msg => .error msg
      | .ok (args2, st1) => .ok (.udf fnId args2, st1)
    | .other op args =>
      match truncAnyList stageIdx exprIdx args st with
      | .error msg => .error msg
      | .ok (args2, st1) => .ok (.other op args2, st1)
  else
    match e with
    | .udf _ _ =>
      .error "TruncateAnyUDFChildren should never run on a UDF expression"
    | .col n => .ok (.col n, anyColStep n st)
    | .lit v => .ok (.lit v, st)
    | .alias inner nm =>
      if isUdf inner then
        let n := anyIntermediateName stageIdx exprIdx 0
        let st1 : AnySt :=
          { st with
            newChildren := st.newChildren ++ [Expr.alias inner n],
            generated := st.generated ++ [n] }
        .ok (.alias (.col n) nm, anyColVisit n st1)
      else
        match truncAnyVisit stageIdx exprIdx inner st with
        | .error msg => .error msg
        | .ok (inner2, st1) => .ok (.alias inner2 nm, st1)
    | .scalarFn fnId args =>
      if fnId == listMapId then
        match truncAnyList stageIdx exprIdx args { st with isListMap := true } with
        | .error msg => .error msg
        | .ok (args2, st1) => .ok (.scalarFn fnId args2, st1)
      else
        let (args1, st1) := anyReplace stageIdx exprIdx 0 args st
        match truncAnyPairs stageIdx exprIdx args args1 st1 with
        | .error msg => .error msg
        | .ok (args2, st2) => .ok (.scalarFn fnId args2, st2)
    | .other op args =>
      let (args1, st1) := anyReplace stageIdx exprIdx 0 args st
      match truncAnyPairs stageIdx exprIdx args args1 st1 with
      | .error msg => .error msg
      | .ok (args2, st2) => .ok (.other op args2, st2)
termination_by structural e

/-- Descent of the rewrite into an untouched child list. -/
def truncAnyList (stageIdx exprIdx : Nat) (l : List Expr) (st : AnySt) :
    Except String (List Expr × AnySt) :=
  match l with
  | [] => .ok ([], st)
  | c :: cs =>
    match truncAnyVisit stageIdx exprIdx c st with
    | .error msg => .error msg
    | .ok (c2, st1) =>
      match truncAnyList stageIdx exprIdx cs st1 with
      | .error msg => .error msg
      | .ok (cs2, st2) => .ok (c2 :: cs2, st2)
termination_by structural l

/-- Descent of the rewrite into the replaced child list of the catch-all
arm: a UDF argument was replaced by a fresh column, whose visit runs the
column arm of f_down (or the sticky-flag no-op); a kept argument is visited
in full.  When no argument is a UDF the replacement was the identity and
this is the ordinary descent. -/
def truncAnyPairs (stageIdx exprIdx : Nat) (orig news : List Expr)
    (st : AnySt) : Except String (List Expr × AnySt) :=
  match orig, news with
  | _, [] => .ok ([], st)
  | [], _ :: _ => .ok ([], st)
  | c :: cs, cN :: csN =>
    if isUdf c then
      let st1 := anyColVisit (exprName cN) st
      match truncAnyPairs stageIdx exprIdx cs csN st1 with
      | .error msg => .error msg
      | .ok (rest, st2) => .ok (cN :: rest, st2)
    else
      match truncAnyVisit stageIdx exprIdx c st with
      | .error msg => .error msg
      | .ok (c2, st1) =>
        match truncAnyPairs stageIdx exprIdx cs csN st1 with
        | .error msg => .error msg
        | .ok (rest, st2) => .ok (c2 :: rest, st2)
termination_by structural orig

end

/-- Run TruncateRootUDF on an expression with the fresh state of
TruncateRootUDF::new (split_udfs.rs lines 138-146, 344-345). -/
def truncRootRun (stageIdx exprIdx : Nat) (e : Expr) : Expr × RootSt :=
  truncRootVisit stageIdx exprIdx e { newChildren := [], generated := [] }

/-- Run TruncateAnyUDFChildren on an expression with the fresh state of
TruncateAnyUDFChildren::new (split_udfs.rs lines 157-166, 356-357). -/
def truncAnyRun (stageIdx exprIdx : Nat) (e : Expr) :
    Except String (Expr × AnySt) :=
  truncAnyVisit stageIdx exprIdx e
    { newChildren := [], isListMap := false, generated := [] }

/-- Accumulator of split_projection (split_udfs.rs lines 319-384): the
truncated expressions, the names already seen (the HashSet, modelled as a
list queried only through membership), the new children in insertion order,
and the generated intermediate names in generation order. -/
structure SplitAcc where
  truncated : List Expr
  seenNames : List String
  newChildren : List Expr
  generated : List String

/-- Merge one collected child into the accumulator, skipping it when its
name was already seen (split_udfs.rs lines 347-352 and 359-364). -/
def mergeChild (acc : SplitAcc) (nc : Expr) : SplitAcc :=
  if acc.seenNames.contains (exprName nc) then acc
  else
    { acc with
      seenNames := acc.seenNames ++ [exprName nc],
      newChildren := acc.newChildren ++ [nc] }

/-- Merge the collected children of a rewriter run, left to right. -/
def mergeChildren (acc : SplitAcc) (ncs : List Expr) : SplitAcc :=
  ncs.foldl mergeChild acc

/-- Add a required column of a UDF-free expression as a new child unless its
name was already seen (split_udfs.rs lines 368-379). -/
def addRequiredCol (acc : SplitAcc) (n : String) : SplitAcc :=
  if acc.seenNames.contains n then acc
  else
    { acc with
      seenNames := acc.seenNames ++ [n],
      newChildren := acc.newChildren ++ [Expr.col n] }

/-- One iteration of the split loop (split_udfs.rs lines 341-381): route the
expression to TruncateRootUDF when its root alias chain ends at a UDF, else
to TruncateAnyUDFChildren when a UDF exists anywhere in it (a plain exists,
with no special treatment of list_map), else keep it unchanged and collect
its required columns. -/
def splitStep (stageIdx exprIdx : Nat) (e : Expr) (acc : SplitAcc) :
    Except String SplitAcc :=
  if isUdfAndShouldTruncateChildren e then
    let (e2, st) := truncRootRun stageIdx exprIdx e
    let acc1 :=
      { acc with
        truncated := acc.truncated ++ [e2],
        generated := acc.generated ++ st.generated }
    .ok (mergeChildren acc1 st.newChildren)
  else if exprHas isUdf e then
    match truncAnyRun stageIdx exprIdx e with
    | .error msg => .error msg
    | .ok (e2, st) =>
      let acc1 :=
        { acc with
          truncated := acc.truncated ++ [e2],
          generated := acc.generated ++ st.generated }
      .ok (mergeChildren acc1 st.newChildren)
  else
    let acc1 := { acc with truncated := acc.truncated ++ [e] }
    .ok ((getRequiredColumns e).foldl addRequiredCol acc1)

/-- The split loop over the projection list, with the running expression
index. -/
def splitGo (stageIdx exprIdx : Nat) (es : List Expr) (acc : SplitAcc) :
    Except String SplitAcc :=
  match es with
  | [] => .ok acc
  | e :: rest =>
    match splitStep stageIdx exprIdx e acc with
    | .error msg => .error msg
    | .ok acc1 => splitGo stageIdx (exprIdx + 1) rest acc1

/-- split_projection (split_udfs.rs lines 319-384): returns the truncated
expressions, the new children for the next stage, and the generated
intermediate names. -/
def splitProjection (projection : List Expr) (stageIdx : Nat) :
    Except String (List Expr × List Expr × List String) :=
  match splitGo stageIdx 0 projection
      { truncated := [], seenNames := [], newChildren := [], generated := [] } with
  | .error msg => .error msg
  | .ok acc => .ok (acc.truncated, acc.newChildren, acc.generated)

/-- Logical plan nodes (spec section 3).  Sources carry their schema, and
the generic kind stands for every other node of the plan algebra, opaque to
the pass, carrying its own schema and children. -/
inductive LogicalPlan where
  | source (fields : List String)
  | project (input : LogicalPlan) (projection : List Expr)
  | udfProject (input : LogicalPlan) (projectExpr : Expr)
      (passthroughColumns : List Expr)
  | generic (name : String) (fields : List String)
      (children : List LogicalPlan)

/-- Modelled from the spec (sections 3 and 6): schema_of as an ordered list
of column names.  A projection is named by its expressions, and a
UDFProject produces the passthrough columns followed by the UDF column. -/
def schemaNames : LogicalPlan → List String
  | .source fields => fields
  | .project _ projection => projection.map exprName
  | .udfProject _ projectExpr passthroughColumns =>
    passthroughColumns.map exprName ++ [exprName projectExpr]
  | .generic _ fields _ => fields

/-- Modelled from the spec (section 7, MalformedPlan): Project::try_new
fails when expression-to-schema resolution rejects a column reference not
produced by the input. -/
def Project.tryNew (input : LogicalPlan) (projection : List Expr) :
    Except String LogicalPlan :=
  if projection.all
      (fun e => (getRequiredColumns e).all
        (fun n => (schemaNames input).contains n)) then
    .ok (.project input projection)
  else .error "unresolved column in projection"

/-- Modelled from the spec (section 7): UDFProject::try_new with the same
column-resolution requirement over the UDF expression and the passthrough
columns. -/
def UDFProject.tryNew (input : LogicalPlan) (projectExpr : Expr)
    (passthroughColumns : List Expr) : Except String LogicalPlan :=
  if (getRequiredColumns projectExpr ++
        (passthroughColumns.map getRequiredColumns).flatten).all
      (fun n => (schemaNames input).contains n) then
    .ok (.udfProject input projectExpr passthroughColumns)
  else .error "unresolved column in UDF projection"

/-- The fold of split_udfs.rs lines 501-515: wrap the child in one
UDFProject per UDF stage, passing through every column of the current child
other than the one the stage defines. -/
def buildUdfChain (stages : List Expr) (child : LogicalPlan) :
    Except String LogicalPlan :=
  match stages with
  | [] => .ok child
  | e :: rest =>
    let passthroughColumns :=
      ((schemaNames child).map Expr.col).filter
        (fun c => exprName c != exprName e)
    match UDFProject.tryNew child e passthroughColumns with
    | .error msg => .error msg
    | .ok node => buildUdfChain rest node

/-- The pre-project expression list (split_udfs.rs lines 474-496): every
column of the new child whose name is not defined by a stateless stage,
in schema order, followed by the stateless stages. -/
def statelessProjection (newPlanChild : LogicalPlan)
    (statelessStages : List Expr) : List Expr :=
  let statelessNames := statelessStages.map exprName
  ((schemaNames newPlanChild).filterMap
    (fun n => if statelessNames.contains n then none else some (Expr.col n)))
    ++ statelessStages

/-- Assembly of the rewritten stage chain (split_udfs.rs lines 469-527):
partition the truncated expressions into UDF stages and stateless stages,
build the pre-project, fold the UDF stages into UDFProject nodes, and close
with the final selection of the original output names. -/
def assembleStages (pExprs truncatedExprs : List Expr)
    (newPlanChild : LogicalPlan) : Except String LogicalPlan :=
  let parts := truncatedExprs.partition (fun e => existsSkipListMap isUdf e)
  match Project.tryNew newPlanChild (statelessProjection newPlanChild parts.2) with
  | .error msg => .error msg
  | .ok newPlan1 =>
    match buildUdfChain parts.1 newPlan1 with
    | .error msg => .error msg
    | .ok newPlan2 =>
      Project.tryNew newPlan2 (pExprs.map (fun e => Expr.col (exprName e)))

/-- recursive_optimize_project (split_udfs.rs lines 410-530).  The fuel
argument bounds the recursion depth of the embedding; the source recurses
until the remaining expressions are bare columns.  Returns the transformed
flag, the resulting plan, and the generated intermediate names. -/
def recursiveOptimizeProject (fuel : Nat) (pInput : LogicalPlan)
    (pExprs : List Expr) (plan : LogicalPlan) (recursiveCount : Nat) :
    Except String (Bool × LogicalPlan × List String) :=
  match fuel with
  | 0 => .error "recursion fuel exhausted"
  | fuel + 1 =>
    if pExprs.any (fun e => existsSkipListMap isUdf e) then
      match splitProjection pExprs recursiveCount with
      | .error msg => .error msg
      | .ok (truncatedExprs, remaining, gen1) =>
        let step2 : Except String (LogicalPlan × List String) :=
          if remaining.all isColExpr then .ok (pInput, [])
          else
            match Project.tryNew pInput remaining with
            | .error msg => .error msg
            | .ok newChildProject =>
              match recursiveOptimizeProject fuel pInput remaining
                  newChildProject (recursiveCount + 1) with
              | .error msg => .error msg
              | .ok (_, childData, gen2) => .ok (childData, gen2)
        match step2 with
        | .error msg => .error msg
        | .ok (newPlanChild, gen2) =>
          match assembleStages pExprs truncatedExprs newPlanChild with
          | .error msg => .error msg
          | .ok finalPlan => .ok (true, finalPlan, gen1 ++ gen2)
    else .ok (false, plan, [])
termination_by structural fuel

/-- Entry aliasing of try_optimize_project (split_udfs.rs lines 393-403): an
expression containing a UDF anywhere (plain exists) and not already an
alias is wrapped in an alias carrying its own name. -/
def aliasEntry (e : Expr) : Expr :=
  if exprHas isUdf e && !isAlias e then .alias e (exprName e) else e

/-- try_optimize_project (split_udfs.rs lines 386-408): alias the
projection expressions, rebuild the projection, and run the recursive
optimizer at depth zero against the original plan node. -/
def tryOptimizeProject (fuel : Nat) (pInput : LogicalPlan)
    (pExprs : List Expr) (plan : LogicalPlan) :
    Except String (Bool × LogicalPlan × List String) :=
  let aliased := pExprs.map aliasEntry
  match Project.tryNew pInput aliased with
  | .error msg => .error msg
  | .ok _ => recursiveOptimizeProject fuel pInput aliased plan 0

mutual

/-- SplitUDFs::try_optimize (split_udfs.rs lines 121-128): transform_down
over the plan, rewriting each Project node through try_optimize_project and
forwarding every other node, then descending into the children of the
rewritten node.  The fuel bounds the tree depth reached by the embedding. -/
def transformDownSplit (fuel : Nat) (plan : LogicalPlan) :
    Except String (LogicalPlan × List String) :=
  match fuel with
  | 0 => .error "plan fuel exhausted"
  | fuel + 1 =>
    let step : Except String (LogicalPlan × List String) :=
      match plan with
      | .project pInput pExprs =>
        match tryOptimizeProject fuel pInput pExprs
            (.project pInput pExprs) with
        | .error msg => .error msg
        | .ok (_, node2, gen) => .ok (node2, gen)
      | .source fields => .ok (.source fields, [])
      | .udfProject pInput projectExpr passthroughColumns =>
        .ok (.udfProject pInput projectExpr passthroughColumns, [])
      | .generic nm fields children => .ok (.generic nm fields children, [])
    match step with
    | .error msg => .error msg
    | .ok (node2, gen1) =>
      match node2 with
      | .source fields => .ok (.source fields, gen1)
      | .project pInput pExprs =>
        match transformDownSplit fuel pInput with
        | .error msg => .error msg
        | .ok (input2, gen2) => .ok (.project input2 pExprs, gen1 ++ gen2)
      | .udfProject pInput projectExpr passthroughColumns =>
        match transformDownSplit fuel pInput with
        | .error msg => .error msg
        | .ok (input2, gen2) =>
          .ok (.udfProject input2 projectExpr passthroughColumns, gen1 ++ gen2)
      | .generic nm fields children =>
        match transformDownChildren fuel children with
        | .error msg => .error msg
        | .ok (children2, gen2) => .ok (.generic nm fields children2, gen1 ++ gen2)
termination_by structural fuel

/-- transform_down applied to each child of a forwarded node.  The fuel of
the embedding is consumed once per list step as well, keeping the recursion
structural in the fuel. -/
def transformDownChildren (fuel : Nat) (cs : List LogicalPlan) :
    Except String (List LogicalPlan × List String) :=
  match fuel with
  | 0 => .error "plan fuel exhausted"
  | fuel + 1 =>
    match cs with
    | [] => .ok ([], [])
    | c :: rest =>
      match transformDownSplit fuel c with
      | .error msg => .error msg
      | .ok (c2, gen1) =>
        match transformDownChildren fuel rest with
        | .error msg => .error msg
        | .ok (rest2, gen2) => .ok (c2 :: rest2, gen1 ++ gen2)
termination_by structural fuel

end

/-- rewrite_plan, the entry point of the pass (spec section 6, SplitUDFs as
an OptimizerRule). -/
def rewritePlan (fuel : Nat) (plan : LogicalPlan) :
    Except String (LogicalPlan × List String) :=
  transformDownSplit fuel plan

mutual

/-- The projection lists of all Project nodes of a plan, root first. -/
def planProjExprs : LogicalPlan → List (List Expr)
  | .source _ => []
  | .project pInput projection => projection :: planProjExprs pInput
  | .udfProject pInput _ _ => planProjExprs pInput
  | .generic _ _ children => planProjExprsList children
termination_by structural p => p

/-- Projection lists of all Project nodes in a list of plans. -/
def planProjExprsList : List LogicalPlan → List (List Expr)
  | [] => []
  | c :: cs => planProjExprs c ++ planProjExprsList cs
termination_by structural l => l

end

mutual

/-- The UDF expression and passthrough list of every UDFProject node of a
plan, root first. -/
def planUdfProjects : LogicalPlan → List (Expr × List Expr)
  | .source _ => []
  | .project pInput _ => planUdfProjects pInput
  | .udfProject pInput projectExpr passthroughColumns =>
    (projectExpr, passthroughColumns) :: planUdfProjects pInput
  | .generic _ _ children => planUdfProjectsList children
termination_by structural p => p

/-- UDFProject contents of a list of plans. -/
def planUdfProjectsList : List LogicalPlan → List (Expr × List Expr)
  | [] => []
  | c :: cs => planUdfProjects c ++ planUdfProjectsList cs
termination_by structural l => l

end

mutual

/-- All list_map-rooted subexpressions appearing in the expressions of a
plan (projection lists, UDF expressions, and passthrough lists). -/
def planLmSubtrees : LogicalPlan → List Expr
  | .source _ => []
  | .project pInput projection =>
    exprLmSubtreesList projection ++ planLmSubtrees pInput
  | .udfProject pInput projectExpr passthroughColumns =>
    exprLmSubtrees projectExpr ++ exprLmSubtreesList passthroughColumns ++
      planLmSubtrees pInput
  | .generic _ _ children => planLmSubtreesList children
termination_by structural p => p

/-- list_map subexpressions of a list of plans. -/
def planLmSubtreesList : List LogicalPlan → List Expr
  | [] => []
  | c :: cs => planLmSubtrees c ++ planLmSubtreesList cs
termination_by structural l => l

end

mutual

/-- Height of a plan tree. -/
def planDepth : LogicalPlan → Nat
  | .source _ => 1
  | .project pInput _ => planDepth pInput + 1
  | .udfProject pInput _ _ => planDepth pInput + 1
  | .generic _ _ children => planDepthList children + 1
termination_by structural p => p

/-- Maximum height over a list of plans. -/
def planDepthList : List LogicalPlan → Nat
  | [] => 0
  | c :: cs => max (planDepth c) (planDepthList cs)
termination_by structural l => l

end

mutual

/-- Every Project node of the plan resolves: each required column of each of
its expressions is produced by its input. -/
def projValid : LogicalPlan → Bool
  | .source _ => true
  | .project pInput projection =>
    projection.all
        (fun e => (getRequiredColumns e).all
          (fun n => (schemaNames pInput).contains n)) &&
      projValid pInput
  | .udfProject pInput _ _ => projValid pInput
  | .generic _ _ children => projValidList children
termination_by structural p => p

/-- Project validity over a list of plans. -/
def projValidList : List LogicalPlan → Bool
  | [] => true
  | c :: cs => projValid c && projValidList cs
termination_by structural l => l

end

mutual

/-- No Project node of the plan has an expression on which
exists_skip_list_map finds a UDF: every Project hits the base case of the
recursive optimizer. -/
def noSplit : LogicalPlan → Bool
  | .source _ => true
  | .project pInput projection =>
    projection.all (fun e => !existsSkipListMap isUdf e) && noSplit pInput
  | .udfProject pInput _ _ => noSplit pInput
  | .generic _ _ children => noSplitList children
termination_by structural p => p

/-- The no-splittable-UDF property over a list of plans. -/
def noSplitList : List LogicalPlan → Bool
  | [] => true
  | c :: cs => noSplit c && noSplitList cs
termination_by structural l => l

end

/-- Resolution validity of a projection list against a schema. -/
def validAgainst (es : List Expr) (names : List String) : Bool :=
  es.all (fun e => (getRequiredColumns e).all (fun n => names.contains n))

/-- Relation between an original child and its replacement in the catch-all
arm of TruncateAnyUDFChildren: a UDF child becomes a fresh column, any other
child is kept. -/
def replacedChild (c cN : Expr) : Prop :=
  (isUdf c = true ∧ ∃ n, cN = Expr.col n) ∨ (isUdf c = false ∧ cN = c)

/-- Relation between an original argument and its replacement in the UDF arm
of TruncateRootUDF: a computation-bearing argument becomes a fresh column,
any other argument is kept. -/
def rootReplacedChild (c cN : Expr) : Prop :=
  (requiresComputation c = true ∧ ∃ n, cN = Expr.col n) ∨
    (requiresComputation c = false ∧ cN = c)

/-- Invariant I2 on a UDFProject stage: exactly one UDF, at the root once
aliases are stripped, and only bare column references in the passthrough
list. -/
def goodUdfStage (pr : Expr × List Expr) : Bool :=
  isUdf (stripAlias pr.1) && (countUdf pr.1 == 1) && pr.2.all isColExpr

/-- A projection expression whose UDF follows a list_map in pre-order: the
spec predicate sees the UDF, the walk of the source stops first. -/
def exprC1 : Expr :=
  .other "add" [.scalarFn "list_map" [.lit "v"], .udf "foo" [.col "a"]]

/-- A one-expression projection over a scan, exercising exprC1. -/
def planC1 : LogicalPlan := .project (.source ["a"]) [exprC1]

/-- An expression with two UDF children under two different tree nodes: the
per-node counter of the child truncator gives both the same name. -/
def exprC3 : Expr :=
  .alias (.other "add" [.other "neg" [.udf "foo" [.col "a"]],
    .udf "goo" [.col "b"]]) "x"

/-- A one-expression projection over a scan, exercising exprC3. -/
def planC3 : LogicalPlan := .project (.source ["a", "b"]) [exprC3]

/-- A list_map subexpression fed to a lifted UDF child. -/
def lmC8 : Expr := .scalarFn "list_map" [.col "a"]

/-- Like exprC3, but the first lifted UDF child contains a list_map; the
name collision makes the splitter drop that lifted child. -/
def exprC8 : Expr :=
  .alias (.other "add" [.other "mul" [.udf "foo" [lmC8]],
    .udf "goo" [.col "b"]]) "x"

/-- A one-expression projection over a scan, exercising exprC8. -/
def planC8 : LogicalPlan := .project (.source ["a", "b"]) [exprC8]

/-- A root UDF whose first argument is a bare column and whose second
argument requires computation. -/
def exprC4 : Expr :=
  .alias (.udf "foo" [.col "a", .other "add" [.col "b", .col "b"]]) "x"

/-- An expression whose only UDF lies beneath a list_map, wrapped in an
alias so the root route is not taken. -/
def exprC6 : Expr := .alias (.scalarFn "list_map" [.udf "foo" [.col "a"]]) "x"

/-- An expression whose only UDF lies beneath a list_map, not an alias. -/
def exprC7 : Expr := .scalarFn "list_map" [.udf "foo" [.col "a"]]

/-- A single aliased single-argument UDF projection, used as the concrete
witness input of several claims. -/
def planW : LogicalPlan :=
  .project (.source ["a"]) [.alias (.udf "foo" [.col "a"]) "b"]

/-- The plan the pass produces from planW. -/
def planWOut : LogicalPlan :=
  .project
    (.udfProject (.project (.source ["a"]) [.col "a"])
      (.alias (.udf "foo" [.col "a"]) "b") [.col "a"])
    [.col "b"]

theorem esScan_alias_isUdf (e : Expr) (n : String) :
    esScan isUdf (.alias e n) = esScan isUdf e := by
  simp [esScan, isListMapE, isUdf]

theorem existsSkipListMap_alias_isUdf (e : Expr) (n : String) :
    existsSkipListMap isUdf (.alias e n) = existsSkipListMap isUdf e := by
  simp [existsSkipListMap, esScan_alias_isUdf]

mutual

theorem esScan_not_found (f : Expr → Bool) (e : Expr)
    (h : exprHas f e = false) : esScan f e ≠ ScanOut.found := by
  have hf : f e = false := by
    unfold exprHas at h
    exact (Bool.or_eq_false_iff.mp h).1
  cases e with
  | col n => simp [esScan, hf, isListMapE]
  | lit v => simp [esScan, hf, isListMapE]
  | «alias» inner nm =>
    have hrest : exprHas f inner = false := by
      unfold exprHas at h
      exact (Bool.or_eq_false_iff.mp h).2
    simpa [esScan, hf, isListMapE] using esScan_not_found f inner hrest
  | scalarFn fnId args =>
    have hrest : exprHasList f args = false := by
      unfold exprHas at h
      exact (Bool.or_eq_false_iff.mp h).2
    by_cases hlm : isListMapE (.scalarFn fnId args)
    · simp [esScan, hlm]
    · simpa [esScan, hlm, hf] using esScanList_not_found f args hrest
  | udf fnId args =>
    have hrest : exprHasList f args = false := by
      unfold exprHas at h
      exact (Bool.or_eq_false_iff.mp h).2
    simpa [esScan, hf, isListMapE] using esScanList_not_found f args hrest
  | other op args =>
    have hrest : exprHasList f args = false := by
      unfold exprHas at h
      exact (Bool.or_eq_false_iff.mp h).2
    simpa [esScan, hf, isListMapE] using esScanList_not_found f args hrest
termination_by structural e

theorem esScanList_not_found (f : Expr → Bool) (l : List Expr)
    (h : exprHasList f l = false) : esScanList f l ≠ ScanOut.found := by
  cases l with
  | nil => simp [esScanList]
  | cons e es =>
    have he : exprHas f e = false := by
      unfold exprHasList at h
      exact (Bool.or_eq_false_iff.mp h).1
    have hes : exprHasList f es = false := by
      unfold exprHasList at h
      exact (Bool.or_eq_false_iff.mp h).2
    have h1 := esScan_not_found f e he
    have h2 := esScanList_not_found f es hes
    unfold esScanList
    cases hs : esScan f e with
    | found => exact absurd hs h1
    | halted => simp
    | through => simpa using h2
termination_by structural l

end

theorem existsSkipListMap_of_no_udf (e : Expr) (h : exprHas isUdf e = false) :
    existsSkipListMap isUdf e = false := by
  have := esScan_not_found isUdf e h
  simp only [existsSkipListMap, beq_eq_false_iff_ne, ne_eq]
  simpa using this

theorem exprName_aliasEntry (e : Expr) :
    exprName (aliasEntry e) = exprName e := by
  unfold aliasEntry
  split
  · rfl
  · rfl

theorem getRequiredColumns_aliasEntry (e : Expr) :
    getRequiredColumns (aliasEntry e) = getRequiredColumns e := by
  unfold aliasEntry
  split
  · rfl
  · rfl

theorem existsSkipListMap_aliasEntry (e : Expr) :
    existsSkipListMap isUdf (aliasEntry e) = existsSkipListMap isUdf e := by
  unfold aliasEntry
  split
  · exact existsSkipListMap_alias_isUdf e (exprName e)
  · rfl

theorem tryNew_ok_shape (input : LogicalPlan) (projection : List Expr)
    (q : LogicalPlan) (h : Project.tryNew input projection = .ok q) :
    q = .project input projection := by
  unfold Project.tryNew at h
  split at h
  · exact (Except.ok.injEq _ _).mp h.symm |>.symm ▸ rfl
  · exact absurd h (by simp)

theorem tryNew_ok_valid (input : LogicalPlan) (projection : List Expr)
    (q : LogicalPlan) (h : Project.tryNew input projection = .ok q) :
    projection.all
      (fun e => (getRequiredColumns e).all
        (fun n => (schemaNames input).contains n)) = true := by
  unfold Project.tryNew at h
  split at h
  · assumption
  · exact absurd h (by simp)

theorem assembleStages_ok_shape (pExprs truncatedExprs : List Expr)
    (newPlanChild : LogicalPlan) (q : LogicalPlan)
    (h : assembleStages pExprs truncatedExprs newPlanChild = .ok q) :
    ∃ x, q = .project x (pExprs.map (fun e => Expr.col (exprName e))) := by
  unfold assembleStages at h
  dsimp only [] at h
  split at h
  · simp at h
  · split at h
    · simp at h
    · rename_i newPlan2 hchain
      exact ⟨newPlan2, tryNew_ok_shape _ _ _ h⟩

theorem assembleStages_ok_full (pExprs truncatedExprs : List Expr)
    (newPlanChild : LogicalPlan) (q : LogicalPlan)
    (h : assembleStages pExprs truncatedExprs newPlanChild = .ok q) :
    ∃ x, q = .project x (pExprs.map (fun e => Expr.col (exprName e))) ∧
      validAgainst (pExprs.map (fun e => Expr.col (exprName e)))
        (schemaNames x) = true := by
  unfold assembleStages at h
  dsimp only [] at h
  split at h
  · simp at h
  · split at h
    · simp at h
    · rename_i newPlan2 hchain
      refine ⟨newPlan2, tryNew_ok_shape _ _ _ h, ?_⟩
      exact tryNew_ok_valid _ _ _ h

theorem recOpt_false_inv (fuel : Nat) (pInput : LogicalPlan)
    (pExprs : List Expr) (plan : LogicalPlan) (c : Nat) (q : LogicalPlan)
    (g : List String)
    (h : recursiveOptimizeProject fuel pInput pExprs plan c = .ok (false, q, g)) :
    q = plan ∧ g = [] ∧
      pExprs.any (fun e => existsSkipListMap isUdf e) = false := by
  match fuel with
  | 0 => simp [recursiveOptimizeProject] at h
  | fuel + 1 =>
    unfold recursiveOptimizeProject at h
    by_cases hb : pExprs.any (fun e => existsSkipListMap isUdf e)
    · rw [if_pos hb] at h
      exfalso
      split at h
      · simp at h
      · rename_i tr rem gen1 hsplit
        cases hc : rem.all isColExpr with
        | true =>
          simp only [hc, if_true] at h
          split at h
          · simp at h
          · simp at h
        | false =>
          simp only [hc, Bool.false_eq_true, if_false] at h
          split at h
          · simp at h
          · split at h
            · simp at h
            · simp at h
    · rw [if_neg hb] at h
      simp only [Except.ok.injEq, Prod.mk.injEq] at h
      exact ⟨h.2.1.symm, h.2.2.symm, by simpa using hb⟩

theorem recOpt_true_full (fuel : Nat) (pInput : LogicalPlan)
    (pExprs : List Expr) (plan : LogicalPlan) (c : Nat) (q : LogicalPlan)
    (g : List String)
    (h : recursiveOptimizeProject fuel pInput pExprs plan c = .ok (true, q, g)) :
    ∃ x, q = .project x (pExprs.map (fun e => Expr.col (exprName e))) ∧
      validAgainst (pExprs.map (fun e => Expr.col (exprName e)))
        (schemaNames x) = true := by
  match fuel with
  | 0 => simp [recursiveOptimizeProject] at h
  | fuel + 1 =>
    unfold recursiveOptimizeProject at h
    by_cases hb : pExprs.any (fun e => existsSkipListMap isUdf e)
    · rw [if_pos hb] at h
      split at h
      · simp at h
      · rename_i tr rem gen1 hsplit
        cases hc : rem.all isColExpr with
        | true =>
          simp only [hc, if_true] at h
          split at h
          · simp at h
          · rename_i finalPlan hasm
            simp only [Except.ok.injEq, Prod.mk.injEq] at h
            rw [← h.2.1]
            exact assembleStages_ok_full _ _ _ _ hasm
        | false =>
          simp only [hc, Bool.false_eq_true, if_false] at h
          split at h
          · simp at h
          · split at h
            · simp at h
            · rename_i node hasm
              simp only [Except.ok.injEq, Prod.mk.injEq] at h
              rw [← h.2.1]
              exact assembleStages_ok_full _ _ _ _ hasm
    · rw [if_neg hb] at h
      simp at h

theorem recOpt_true_shape (fuel : Nat) (pInput : LogicalPlan)
    (pExprs : List Expr) (plan : LogicalPlan) (c : Nat) (q : LogicalPlan)
    (g : List String)
    (h : recursiveOptimizeProject fuel pInput pExprs plan c = .ok (true, q, g)) :
    ∃ x, q = .project x (pExprs.map (fun e => Expr.col (exprName e))) := by
  obtain ⟨x, hx, _⟩ := recOpt_true_full fuel pInput pExprs plan c q g h
  exact ⟨x, hx⟩

theorem tryOpt_inv (fuel : Nat) (pInput : LogicalPlan) (pExprs : List Expr)
    (plan : LogicalPlan) (b : Bool) (q : LogicalPlan) (g : List String)
    (h : tryOptimizeProject fuel pInput pExprs plan = .ok (b, q, g)) :
    ∃ ap, Project.tryNew pInput (pExprs.map aliasEntry) = .ok ap ∧
      recursiveOptimizeProject fuel pInput (pExprs.map aliasEntry) plan 0
        = .ok (b, q, g) := by
  unfold tryOptimizeProject at h
  dsimp only [] at h
  split at h
  · simp at h
  · rename_i ap hap
    exact ⟨ap, hap, h⟩

theorem existsSkipListMap_col (n : String) :
    existsSkipListMap isUdf (.col n) = false := by
  simp [existsSkipListMap, esScan, isListMapE, isUdf]

theorem tryOpt_true_schema (fuel : Nat) (pInput : LogicalPlan)
    (pExprs : List Expr) (plan : LogicalPlan) (q : LogicalPlan)
    (g : List String)
    (h : tryOptimizeProject fuel pInput pExprs plan = .ok (true, q, g)) :
    schemaNames q = pExprs.map exprName := by
  obtain ⟨ap, hap, hrec⟩ := tryOpt_inv fuel pInput pExprs plan true q g h
  obtain ⟨x, hx⟩ := recOpt_true_shape fuel pInput (pExprs.map aliasEntry)
    plan 0 q g hrec
  subst hx
  simp only [schemaNames, List.map_map]
  refine List.map_congr_left ?_
  intro e _
  simp [Function.comp, exprName, exprName_aliasEntry]

/-- C5: when the recursive optimizer replaces a projection, the output
column names of the produced chain equal, in order, those of the original
projection. -/
theorem c5_name_preservation (fuel : Nat) (pInput : LogicalPlan)
    (pExprs : List Expr) (plan : LogicalPlan) (q : LogicalPlan)
    (g : List String)
    (h : tryOptimizeProject fuel pInput pExprs plan = .ok (true, q, g)) :
    schemaNames q = schemaNames (.project pInput pExprs) := by
  rw [tryOpt_true_schema fuel pInput pExprs plan q g h]
  rfl

theorem c5_name_preservation_witness :
    schemaNames planWOut =
      schemaNames (.project (.source ["a"])
        [.alias (.udf "foo" [.col "a"]) "b"]) :=
  c5_name_preservation 2 (.source ["a"]) [.alias (.udf "foo" [.col "a"]) "b"]
    planW planWOut [] (by rfl)

theorem tryOpt_project_exprs_noSplit (fuel : Nat) (pInput : LogicalPlan)
    (pExprs : List Expr) (b : Bool) (q : LogicalPlan) (g : List String)
    (i2 : LogicalPlan) (es2 : List Expr)
    (h : tryOptimizeProject fuel pInput pExprs (.project pInput pExprs)
      = .ok (b, q, g))
    (hq : q = .project i2 es2) :
    ∀ e ∈ es2, existsSkipListMap isUdf e = false := by
  obtain ⟨ap, hap, hrec⟩ := tryOpt_inv fuel pInput pExprs _ b q g h
  cases b with
  | true =>
    obtain ⟨x, hx⟩ := recOpt_true_shape fuel pInput (pExprs.map aliasEntry)
      _ 0 q g hrec
    rw [hq] at hx
    injection hx with hx1 hx2
    subst hx2
    intro e he
    obtain ⟨e0, _, he0⟩ := List.mem_map.mp he
    rw [← he0]
    exact existsSkipListMap_col _
  | false =>
    obtain ⟨hqplan, _, hany⟩ := recOpt_false_inv fuel pInput
      (pExprs.map aliasEntry) _ 0 q g hrec
    rw [hq] at hqplan
    injection hqplan with hq1 hq2
    subst hq2
    intro e he
    rw [List.any_eq_false] at hany
    have := hany (aliasEntry e) (List.mem_map_of_mem _ he)
    simpa [existsSkipListMap_aliasEntry] using this

mutual

theorem transform_noSplit (fuel : Nat) (p q : LogicalPlan) (g : List String)
    (h : transformDownSplit fuel p = .ok (q, g)) :
    ∀ es ∈ planProjExprs q, ∀ e ∈ es, existsSkipListMap isUdf e = false := by
  match fuel with
  | 0 => simp [transformDownSplit] at h
  | fuel + 1 =>
    cases p with
    | project pInput pExprs =>
      unfold transformDownSplit at h
      dsimp only [] at h
      split at h
      · simp at h
      · rename_i npc gen1 htop
        split at htop
        · simp at htop
        · rename_i fst node2 gen htop2
          simp only [Except.ok.injEq, Prod.mk.injEq] at htop
          obtain ⟨hnode, hgen⟩ := htop
          subst hnode
          subst hgen
          split at h
          · -- npc = source
            rename_i fields
            simp only [Except.ok.injEq, Prod.mk.injEq] at h
            rw [← h.1]
            intro es hes
            simp [planProjExprs] at hes
          · -- npc = project i2 es2
            rename_i i2 es2
            split at h
            · simp at h
            · rename_i i2t g2 hrec
              simp only [Except.ok.injEq, Prod.mk.injEq] at h
              rw [← h.1]
              intro es hes
              rw [planProjExprs] at hes
              rcases List.mem_cons.mp hes with hes | hes
              · subst hes
                exact tryOpt_project_exprs_noSplit fuel pInput pExprs fst
                  (.project i2 es) gen i2 es htop2 rfl
              · exact transform_noSplit fuel i2 i2t g2 hrec es hes
          · -- npc = udfProject
            rename_i i2 pe pass
            split at h
            · simp at h
            · rename_i i2t g2 hrec
              simp only [Except.ok.injEq, Prod.mk.injEq] at h
              rw [← h.1]
              intro es hes
              rw [planProjExprs] at hes
              exact transform_noSplit fuel i2 i2t g2 hrec es hes
          · -- npc = generic
            rename_i nm fields children
            split at h
            · simp at h
            · rename_i cs2 g2 hrec
              simp only [Except.ok.injEq, Prod.mk.injEq] at h
              rw [← h.1]
              intro es hes
              rw [planProjExprs] at hes
              exact transformChildren_noSplit fuel children cs2 g2 hrec es hes
    | source fields =>
      unfold transformDownSplit at h
      dsimp only [] at h
      simp only [Except.ok.injEq, Prod.mk.injEq] at h
      rw [← h.1]
      intro es hes
      simp [planProjExprs] at hes
    | udfProject pInput pe pass =>
      unfold transformDownSplit at h
      dsimp only [] at h
      split at h
      · simp at h
      · rename_i i2t g2 hrec
        simp only [Except.ok.injEq, Prod.mk.injEq] at h
        rw [← h.1]
        intro es hes
        rw [planProjExprs] at hes
        exact transform_noSplit fuel pInput i2t g2 hrec es hes
    | generic nm fields children =>
      unfold transformDownSplit at h
      dsimp only [] at h
      split at h
      · simp at h
      · rename_i cs2 g2 hrec
        simp only [Except.ok.injEq, Prod.mk.injEq] at h
        rw [← h.1]
        intro es hes
        rw [planProjExprs] at hes
        exact transformChildren_noSplit fuel children cs2 g2 hrec es hes
termination_by structural fuel

theorem transformChildren_noSplit (fuel : Nat) (cs cs2 : List LogicalPlan)
    (g : List String) (h : transformDownChildren fuel cs = .ok (cs2, g)) :
    ∀ es ∈ planProjExprsList cs2, ∀ e ∈ es,
      existsSkipListMap isUdf e = false := by
  match fuel with
  | 0 => simp [transformDownChildren] at h
  | fuel + 1 =>
    cases cs with
    | nil =>
      unfold transformDownChildren at h
      dsimp only [] at h
      simp only [Except.ok.injEq, Prod.mk.injEq] at h
      rw [← h.1]
      intro es hes
      simp [planProjExprsList] at hes
    | cons c rest =>
      unfold transformDownChildren at h
      dsimp only [] at h
      split at h
      · simp at h
      · rename_i c2 g1 hc
        split at h
        · simp at h
        · rename_i rest2 g2 hrest
          simp only [Except.ok.injEq, Prod.mk.injEq] at h
          rw [← h.1]
          intro es hes
          rw [planProjExprsList] at hes
          rcases List.mem_append.mp hes with hes | hes
          · exact transform_noSplit fuel c c2 g1 hc es hes
          · exact transformChildren_noSplit fuel rest rest2 g2 hrest es hes
termination_by structural fuel

end

/-- C1, as stated, fails on the code: the pass returns planC1 unchanged,
its single Projection keeps exprC1, and exprC1 satisfies the spec reading of
exists_skipping_list_map(is_udf) — its UDF is outside any list_map, merely
after one in pre-order, where the walk of the source has already stopped. -/
theorem c1_counterexample :
    rewritePlan 5 planC1 = .ok (planC1, []) ∧
      planProjExprs planC1 = [[exprC1]] ∧
      existsSkippingSpec isUdf exprC1 = true :=
  ⟨rfl, rfl, rfl⟩

/-- C1 amended: with exists_skip_list_map as the source computes it — the
pre-order walk stops entirely at the first list_map, so a UDF beneath or
after one is not counted — no Projection node of the plan returned by
rewrite_plan contains an expression on which the predicate finds a UDF. -/
theorem c1_amended (fuel : Nat) (p q : LogicalPlan) (g : List String)
    (h : rewritePlan fuel p = .ok (q, g)) :
    ∀ es ∈ planProjExprs q, ∀ e ∈ es, existsSkipListMap isUdf e = false :=
  transform_noSplit fuel p q g h

theorem c1_amended_witness :
    existsSkipListMap isUdf (.col "a") = false :=
  c1_amended 3 (.project (.source ["a"]) [.col "a"])
    (.project (.source ["a"]) [.col "a"]) [] (by rfl)
    [.col "a"] (by simp [planProjExprs]) (.col "a") (by simp)

theorem recOpt_zero (pInput : LogicalPlan) (pExprs : List Expr)
    (plan : LogicalPlan) (c : Nat) (r : Bool × LogicalPlan × List String)
    (h : recursiveOptimizeProject 0 pInput pExprs plan c = .ok r) : False := by
  simp [recursiveOptimizeProject] at h

theorem tryOpt_zero (pInput : LogicalPlan) (pExprs : List Expr)
    (plan : LogicalPlan) (r : Bool × LogicalPlan × List String)
    (h : tryOptimizeProject 0 pInput pExprs plan = .ok r) : False := by
  obtain ⟨ap, hap, hrec⟩ := tryOpt_inv 0 pInput pExprs plan r.1 r.2.1 r.2.2
    (by simpa using h)
  exact recOpt_zero pInput (pExprs.map aliasEntry) plan 0 _ hrec

theorem tryNew_ok_iff (input : LogicalPlan) (projection : List Expr) :
    Project.tryNew input projection = .ok (.project input projection) ↔
      validAgainst projection (schemaNames input) = true := by
  constructor
  · intro h
    exact tryNew_ok_valid input projection _ h
  · intro h
    unfold Project.tryNew
    rw [if_pos]
    exact h

theorem validAgainst_aliasEntry (es : List Expr) (names : List String) :
    validAgainst (es.map aliasEntry) names = validAgainst es names := by
  unfold validAgainst
  rw [List.all_map]
  congr 1
  funext e
  simp [Function.comp, getRequiredColumns_aliasEntry]

theorem tryOpt_project_shape_valid (fuel : Nat) (pInput : LogicalPlan)
    (pExprs : List Expr) (b : Bool) (q : LogicalPlan) (g : List String)
    (i2 : LogicalPlan) (es2 : List Expr)
    (h : tryOptimizeProject fuel pInput pExprs (.project pInput pExprs)
      = .ok (b, q, g))
    (hq : q = .project i2 es2) :
    validAgainst es2 (schemaNames i2) = true := by
  obtain ⟨ap, hap, hrec⟩ := tryOpt_inv fuel pInput pExprs _ b q g h
  cases b with
  | true =>
    obtain ⟨x, hshape, hvalid⟩ := recOpt_true_full fuel pInput
      (pExprs.map aliasEntry) _ 0 q g hrec
    rw [hq] at hshape
    injection hshape with hx1 hx2
    subst hx1
    subst hx2
    exact hvalid
  | false =>
    obtain ⟨hqplan, _, _⟩ := recOpt_false_inv fuel pInput
      (pExprs.map aliasEntry) _ 0 q g hrec
    rw [hq] at hqplan
    injection hqplan with hq1 hq2
    subst hq1
    subst hq2
    have hshape := tryNew_ok_shape _ _ _ hap
    rw [hshape] at hap
    have hv := (tryNew_ok_iff _ _).mp hap
    rwa [validAgainst_aliasEntry] at hv

theorem tryOpt_schema_of_plan (fuel : Nat) (pInput : LogicalPlan)
    (pExprs : List Expr) (b : Bool) (q : LogicalPlan) (g : List String)
    (h : tryOptimizeProject fuel pInput pExprs (.project pInput pExprs)
      = .ok (b, q, g)) :
    schemaNames q = pExprs.map exprName := by
  cases b with
  | true => exact tryOpt_true_schema fuel pInput pExprs _ q g h
  | false =>
    obtain ⟨ap, hap, hrec⟩ := tryOpt_inv fuel pInput pExprs _ false q g h
    obtain ⟨hqplan, _, _⟩ := recOpt_false_inv fuel pInput
      (pExprs.map aliasEntry) _ 0 q g hrec
    rw [hqplan]
    rfl

theorem transform_schema (fuel : Nat) (p q : LogicalPlan) (g : List String)
    (h : transformDownSplit fuel p = .ok (q, g)) :
    schemaNames q = schemaNames p := by
  match fuel with
  | 0 => simp [transformDownSplit] at h
  | fuel + 1 =>
    cases p with
    | project pInput pExprs =>
      unfold transformDownSplit at h
      dsimp only [] at h
      split at h
      · simp at h
      · rename_i npc gen1 htop
        split at htop
        · simp at htop
        · rename_i fst node2 gen htop2
          simp only [Except.ok.injEq, Prod.mk.injEq] at htop
          obtain ⟨hnode, hgen⟩ := htop
          subst hnode
          subst hgen
          have hschema := tryOpt_schema_of_plan fuel pInput pExprs fst node2
            gen htop2
          split at h
          · rename_i fields
            simp only [Except.ok.injEq, Prod.mk.injEq] at h
            rw [← h.1]
            exact hschema
          · rename_i i2 es2
            split at h
            · simp at h
            · simp only [Except.ok.injEq, Prod.mk.injEq] at h
              rw [← h.1]
              exact hschema
          · rename_i i2 pe pass
            split at h
            · simp at h
            · simp only [Except.ok.injEq, Prod.mk.injEq] at h
              rw [← h.1]
              exact hschema
          · rename_i nm fields children
            split at h
            · simp at h
            · simp only [Except.ok.injEq, Prod.mk.injEq] at h
              rw [← h.1]
              exact hschema
    | source fields =>
      unfold transformDownSplit at h
      dsimp only [] at h
      simp only [Except.ok.injEq, Prod.mk.injEq] at h
      rw [← h.1]
    | udfProject pInput pe pass =>
      unfold transformDownSplit at h
      dsimp only [] at h
      split at h
      · simp at h
      · simp only [Except.ok.injEq, Prod.mk.injEq] at h
        rw [← h.1]
        rfl
    | generic nm fields children =>
      unfold transformDownSplit at h
      dsimp only [] at h
      split at h
      · simp at h
      · simp only [Except.ok.injEq, Prod.mk.injEq] at h
        rw [← h.1]
        rfl

theorem anyAliased_eq_false (es : List Expr)
    (h : ∀ e ∈ es, existsSkipListMap isUdf e = false) :
    ((es.map aliasEntry).any fun e => existsSkipListMap isUdf e) = false := by
  rw [List.any_eq_false]
  intro e he
  obtain ⟨e0, he0, rfl⟩ := List.mem_map.mp he
  simp [existsSkipListMap_aliasEntry, h e0 he0]

theorem tryOpt_base (fuel : Nat) (pInput : LogicalPlan) (pExprs : List Expr)
    (plan : LogicalPlan)
    (hval : validAgainst pExprs (schemaNames pInput) = true)
    (hns : ∀ e ∈ pExprs, existsSkipListMap isUdf e = false) :
    tryOptimizeProject (fuel + 1) pInput pExprs plan = .ok (false, plan, []) := by
  unfold tryOptimizeProject
  dsimp only []
  have hap : Project.tryNew pInput (pExprs.map aliasEntry)
      = .ok (.project pInput (pExprs.map aliasEntry)) := by
    rw [tryNew_ok_iff, validAgainst_aliasEntry]
    exact hval
  rw [hap]
  unfold recursiveOptimizeProject
  rw [if_neg]
  intro hcontra
  rw [anyAliased_eq_false pExprs hns] at hcontra
  exact Bool.false_ne_true hcontra

theorem tryOpt_base_nz (fuel : Nat) (hf : fuel ≠ 0) (pInput : LogicalPlan)
    (pExprs : List Expr) (plan : LogicalPlan)
    (hval : validAgainst pExprs (schemaNames pInput) = true)
    (hns : ∀ e ∈ pExprs, existsSkipListMap isUdf e = false) :
    tryOptimizeProject fuel pInput pExprs plan = .ok (false, plan, []) := by
  match fuel with
  | 0 => exact absurd rfl hf
  | fuel + 1 => exact tryOpt_base fuel pInput pExprs plan hval hns

mutual

theorem transform_idem (fuel : Nat) (p q : LogicalPlan) (g : List String)
    (h : transformDownSplit fuel p = .ok (q, g)) :
    transformDownSplit fuel q = .ok (q, []) := by
  match fuel with
  | 0 => simp [transformDownSplit] at h
  | fuel + 1 =>
    cases p with
    | project pInput pExprs =>
      unfold transformDownSplit at h
      dsimp only [] at h
      split at h
      · simp at h
      · rename_i npc gen1 htop
        split at htop
        · simp at htop
        · rename_i fst node2 gen htop2
          simp only [Except.ok.injEq, Prod.mk.injEq] at htop
          obtain ⟨hnode, hgen⟩ := htop
          subst hnode
          subst hgen
          have hf : fuel ≠ 0 := by
            intro h0
            subst h0
            exact tryOpt_zero _ _ _ _ htop2
          split at h
          · -- node2 = source
            rename_i fields
            simp only [Except.ok.injEq, Prod.mk.injEq] at h
            rw [← h.1]
            rfl
          · -- node2 = project i2 es2
            rename_i i2 es2
            split at h
            · simp at h
            · rename_i i2t g2 hrec
              simp only [Except.ok.injEq, Prod.mk.injEq] at h
              rw [← h.1]
              have hns := tryOpt_project_exprs_noSplit fuel pInput
                pExprs fst (.project i2 es2) gen i2 es2 htop2 rfl
              have hval := tryOpt_project_shape_valid fuel pInput
                pExprs fst (.project i2 es2) gen i2 es2 htop2 rfl
              have hsch := transform_schema fuel i2 i2t g2 hrec
              have hval2 : validAgainst es2 (schemaNames i2t) = true := by
                rw [hsch]
                exact hval
              have hbase := tryOpt_base_nz fuel hf i2t es2 (.project i2t es2)
                hval2 hns
              have hidem := transform_idem fuel i2 i2t g2 hrec
              unfold transformDownSplit
              dsimp only []
              rw [hbase]
              dsimp only []
              rw [hidem]
              rfl
          · -- node2 = udfProject
            rename_i i2 pe pass
            split at h
            · simp at h
            · rename_i i2t g2 hrec
              simp only [Except.ok.injEq, Prod.mk.injEq] at h
              rw [← h.1]
              have hidem := transform_idem fuel i2 i2t g2 hrec
              unfold transformDownSplit
              dsimp only []
              rw [hidem]
              rfl
          · -- node2 = generic
            rename_i nm fields children
            split at h
            · simp at h
            · rename_i cs2 g2 hrec
              simp only [Except.ok.injEq, Prod.mk.injEq] at h
              rw [← h.1]
              have hidem := transformChildren_idem fuel children cs2
                g2 hrec
              unfold transformDownSplit
              dsimp only []
              rw [hidem]
              rfl
    | source fields =>
      unfold transformDownSplit at h
      dsimp only [] at h
      simp only [Except.ok.injEq, Prod.mk.injEq] at h
      rw [← h.1]
      rfl
    | udfProject pInput pe pass =>
      unfold transformDownSplit at h
      dsimp only [] at h
      split at h
      · simp at h
      · rename_i i2t g2 hrec
        simp only [Except.ok.injEq, Prod.mk.injEq] at h
        rw [← h.1]
        have hidem := transform_idem fuel pInput i2t g2 hrec
        unfold transformDownSplit
        dsimp only []
        rw [hidem]
        rfl
    | generic nm fields children =>
      unfold transformDownSplit at h
      dsimp only [] at h
      split at h
      · simp at h
      · rename_i cs2 g2 hrec
        simp only [Except.ok.injEq, Prod.mk.injEq] at h
        rw [← h.1]
        have hidem := transformChildren_idem fuel children cs2 g2 hrec
        unfold transformDownSplit
        dsimp only []
        rw [hidem]
        rfl
termination_by structural fuel

theorem transformChildren_idem (fuel : Nat) (cs cs2 : List LogicalPlan)
    (g : List String) (h : transformDownChildren fuel cs = .ok (cs2, g)) :
    transformDownChildren fuel cs2 = .ok (cs2, []) := by
  match fuel with
  | 0 => simp [transformDownChildren] at h
  | fuel + 1 =>
    cases cs with
    | nil =>
      unfold transformDownChildren at h
      dsimp only [] at h
      simp only [Except.ok.injEq, Prod.mk.injEq] at h
      rw [← h.1]
      rfl
    | cons c rest =>
      unfold transformDownChildren at h
      dsimp only [] at h
      split at h
      · simp at h
      · rename_i c2 g1 hc
        split at h
        · simp at h
        · rename_i rest2 g2 hrest
          simp only [Except.ok.injEq, Prod.mk.injEq] at h
          rw [← h.1]
          have h1 := transform_idem fuel c c2 g1 hc
          have h2 := transformChildren_idem fuel rest rest2 g2 hrest
          unfold transformDownChildren
          dsimp only []
          rw [h1]
          dsimp only []
          rw [h2]
          rfl
termination_by structural fuel

end

/-- C9: the pass is idempotent: feeding the plan it returns back into
rewrite_plan returns that plan unchanged (and generates no new names). -/
theorem c9_idempotent (fuel : Nat) (p q : LogicalPlan) (g : List String)
    (h : rewritePlan fuel p = .ok (q, g)) :
    rewritePlan fuel q = .ok (q, []) :=
  transform_idem fuel p q g h

theorem c9_idempotent_witness : rewritePlan 6 planWOut = .ok (planWOut, []) :=
  c9_idempotent 6 planW planWOut [] (by rfl)

theorem anyColStep_flag (n : String) (st : AnySt) :
    (anyColStep n st).isListMap = st.isListMap := by
  unfold anyColStep
  split
  · rfl
  · rfl

theorem anyColVisit_flag (n : String) (st : AnySt) :
    (anyColVisit n st).isListMap = st.isListMap := by
  unfold anyColVisit
  split
  · rfl
  · rw [anyColStep_flag]

mutual

theorem truncAny_flag_id (sIdx pIdx : Nat) (e : Expr) (st : AnySt)
    (h : st.isListMap = true) :
    truncAnyVisit sIdx pIdx e st = .ok (e, st) := by
  cases e with
  | col n =>
    unfold truncAnyVisit
    rw [if_pos h]
  | lit v =>
    unfold truncAnyVisit
    rw [if_pos h]
  | «alias» inner nm =>
    unfold truncAnyVisit
    rw [if_pos h]
    dsimp only []
    rw [truncAny_flag_id sIdx pIdx inner st h]
  | scalarFn fnId args =>
    unfold truncAnyVisit
    rw [if_pos h]
    dsimp only []
    rw [truncAnyList_flag_id sIdx pIdx args st h]
  | udf fnId args =>
    unfold truncAnyVisit
    rw [if_pos h]
    dsimp only []
    rw [truncAnyList_flag_id sIdx pIdx args st h]
  | other op args =>
    unfold truncAnyVisit
    rw [if_pos h]
    dsimp only []
    rw [truncAnyList_flag_id sIdx pIdx args st h]
termination_by structural e

theorem truncAnyList_flag_id (sIdx pIdx : Nat) (l : List Expr) (st : AnySt)
    (h : st.isListMap = true) :
    truncAnyList sIdx pIdx l st = .ok (l, st) := by
  cases l with
  | nil => rfl
  | cons c cs =>
    unfold truncAnyList
    rw [truncAny_flag_id sIdx pIdx c st h]
    dsimp only []
    rw [truncAnyList_flag_id sIdx pIdx cs st h]
termination_by structural l

end

theorem anyReplace_spec (sIdx pIdx : Nat) (args : List Expr) (k : Nat)
    (st : AnySt) :
    (anyReplace sIdx pIdx k args st).2.isListMap = st.isListMap ∧
      List.Forall₂ replacedChild args (anyReplace sIdx pIdx k args st).1 := by
  induction args generalizing k st with
  | nil => exact ⟨rfl, List.Forall₂.nil⟩
  | cons c cs ih =>
    unfold anyReplace
    by_cases hu : isUdf c
    · rw [if_pos hu]
      dsimp only []
      obtain ⟨h1, h2⟩ := ih (k + 1)
        { st with
          newChildren := st.newChildren ++
            [Expr.alias c (anyIntermediateName sIdx pIdx k)],
          generated := st.generated ++ [anyIntermediateName sIdx pIdx k] }
      exact ⟨h1, List.Forall₂.cons (Or.inl ⟨hu, _, rfl⟩) h2⟩
    · rw [if_neg hu]
      dsimp only []
      obtain ⟨h1, h2⟩ := ih k st
      refine ⟨h1, List.Forall₂.cons (Or.inr ⟨by simpa using hu, rfl⟩) h2⟩

theorem truncAnyPairs_flag_id (sIdx pIdx : Nat) (orig news : List Expr)
    (st : AnySt) (h : st.isListMap = true)
    (hp : List.Forall₂ replacedChild orig news) :
    truncAnyPairs sIdx pIdx orig news st = .ok (news, st) := by
  induction hp generalizing st with
  | nil => rfl
  | @cons c cN cs csN hrel hrest ih =>
    unfold truncAnyPairs
    rcases hrel with ⟨hu, n, rfl⟩ | ⟨hu, heq⟩
    · rw [if_pos hu]
      have hcv : anyColVisit (exprName (Expr.col n)) st = st := by
        unfold anyColVisit
        rw [if_pos h]
      rw [hcv]
      dsimp only []
      rw [ih st h]
    · subst heq
      rw [if_neg (by simp [hu])]
      rw [truncAny_flag_id sIdx pIdx cN st h]
      dsimp only []
      rw [ih st h]

theorem esScan_col (n : String) : esScan isUdf (.col n) = .through := by
  simp [esScan, isListMapE, isUdf]

theorem esScan_lit (v : String) : esScan isUdf (.lit v) = .through := by
  simp [esScan, isListMapE, isUdf]

theorem esScan_scalarFn_lm (fnId : String) (args : List Expr)
    (h : (fnId == listMapId) = true) :
    esScan isUdf (.scalarFn fnId args) = .halted := by
  simp [esScan, isListMapE, h]

theorem esScan_scalarFn_nonlm (fnId : String) (args : List Expr)
    (h : (fnId == listMapId) = false) :
    esScan isUdf (.scalarFn fnId args) = esScanList isUdf args := by
  simp [esScan, isListMapE, isUdf, h]

theorem esScan_otherE (op : String) (args : List Expr) :
    esScan isUdf (.other op args) = esScanList isUdf args := by
  simp [esScan, isListMapE, isUdf]

mutual

theorem truncAny_main (sIdx pIdx : Nat) (e : Expr) (st : AnySt)
    (hflag : st.isListMap = false) (hudf : isUdf e = false) :
    ∃ e2 st2, truncAnyVisit sIdx pIdx e st = .ok (e2, st2) ∧
      (st2.isListMap = true → esScan isUdf e2 = .halted) ∧
      (st2.isListMap = false → esScan isUdf e2 = .through) := by
  cases e with
  | col n =>
    refine ⟨.col n, anyColStep n st, ?_, ?_, ?_⟩
    · unfold truncAnyVisit
      rw [if_neg (by simp [hflag])]
    · intro ht
      rw [anyColStep_flag, hflag] at ht
      cases ht
    · intro _
      exact esScan_col n
  | lit v =>
    refine ⟨.lit v, st, ?_, ?_, ?_⟩
    · unfold truncAnyVisit
      rw [if_neg (by simp [hflag])]
    · intro ht
      rw [hflag] at ht
      cases ht
    · intro _
      exact esScan_lit v
  | «alias» inner nm =>
    by_cases hui : isUdf inner
    · refine ⟨.alias (.col (anyIntermediateName sIdx pIdx 0)) nm,
        anyColVisit (anyIntermediateName sIdx pIdx 0)
          { st with
            newChildren := st.newChildren ++
              [Expr.alias inner (anyIntermediateName sIdx pIdx 0)],
            generated := st.generated ++ [anyIntermediateName sIdx pIdx 0] },
        ?_, ?_, ?_⟩
      · unfold truncAnyVisit
        rw [if_neg (by simp [hflag])]
        dsimp only []
        rw [if_pos hui]
      · intro ht
        rw [anyColVisit_flag] at ht
        simp only [hflag] at ht
        cases ht
      · intro _
        rw [esScan_alias_isUdf]
        exact esScan_col _
    · obtain ⟨i2, st1, hv, h1, h2⟩ := truncAny_main sIdx pIdx inner st hflag
        (by simpa using hui)
      refine ⟨.alias i2 nm, st1, ?_, ?_, ?_⟩
      · unfold truncAnyVisit
        rw [if_neg (by simp [hflag])]
        dsimp only []
        rw [if_neg hui, hv]
      · intro ht
        rw [esScan_alias_isUdf]
        exact h1 ht
      · intro ht
        rw [esScan_alias_isUdf]
        exact h2 ht
  | scalarFn fnId args =>
    cases hlm : fnId == listMapId with
    | true =>
      refine ⟨.scalarFn fnId args, { st with isListMap := true }, ?_, ?_, ?_⟩
      · unfold truncAnyVisit
        rw [if_neg (by simp [hflag])]
        dsimp only []
        rw [if_pos hlm]
        rw [truncAnyList_flag_id sIdx pIdx args { st with isListMap := true }
          rfl]
      · intro _
        exact esScan_scalarFn_lm fnId args hlm
      · intro ht
        simp at ht
    | false =>
      rcases hrp : anyReplace sIdx pIdx 0 args st with ⟨args1, st1⟩
      have hspec := anyReplace_spec sIdx pIdx args 0 st
      rw [hrp] at hspec
      obtain ⟨hsf, hrel⟩ := hspec
      obtain ⟨cs2, st2, hpairs, hp1, hp2⟩ := truncAnyPairs_main sIdx pIdx
        args args1 st1 (by rw [hsf]; exact hflag) hrel
      refine ⟨.scalarFn fnId cs2, st2, ?_, ?_, ?_⟩
      · unfold truncAnyVisit
        rw [if_neg (by simp [hflag])]
        dsimp only []
        rw [if_neg (by simp [hlm]), hrp]
        dsimp only []
        rw [hpairs]
      · intro ht
        rw [esScan_scalarFn_nonlm fnId cs2 hlm]
        exact hp1 ht
      · intro ht
        rw [esScan_scalarFn_nonlm fnId cs2 hlm]
        exact hp2 ht
  | udf fnId args =>
    simp [isUdf] at hudf
  | other op args =>
    rcases hrp : anyReplace sIdx pIdx 0 args st with ⟨args1, st1⟩
    have hspec := anyReplace_spec sIdx pIdx args 0 st
    rw [hrp] at hspec
    obtain ⟨hsf, hrel⟩ := hspec
    obtain ⟨cs2, st2, hpairs, hp1, hp2⟩ := truncAnyPairs_main sIdx pIdx
      args args1 st1 (by rw [hsf]; exact hflag) hrel
    refine ⟨.other op cs2, st2, ?_, ?_, ?_⟩
    · unfold truncAnyVisit
      rw [if_neg (by simp [hflag])]
      dsimp only []
      rw [hrp]
      dsimp only []
      rw [hpairs]
    · intro ht
      rw [esScan_otherE op cs2]
      exact hp1 ht
    · intro ht
      rw [esScan_otherE op cs2]
      exact hp2 ht
termination_by structural e

theorem truncAnyPairs_main (sIdx pIdx : Nat) (orig news : List Expr)
    (st : AnySt) (hflag : st.isListMap = false)
    (hp : List.Forall₂ replacedChild orig news) :
    ∃ cs2 st2, truncAnyPairs sIdx pIdx orig news st = .ok (cs2, st2) ∧
      (st2.isListMap = true → esScanList isUdf cs2 = .halted) ∧
      (st2.isListMap = false → esScanList isUdf cs2 = .through) := by
  cases orig with
  | nil =>
    have hnews : news = [] := by
      cases hp
      rfl
    subst hnews
    refine ⟨[], st, rfl, ?_, ?_⟩
    · intro ht
      rw [hflag] at ht
      cases ht
    · intro _
      rfl
  | cons c cs =>
    cases news with
    | nil => cases hp
    | cons cN csN =>
      have hrel : replacedChild c cN := by
        cases hp
        assumption
      have hrest : List.Forall₂ replacedChild cs csN := by
        cases hp
        assumption
      rcases hrel with ⟨hu, n, rfl⟩ | ⟨hu, heq⟩
      · -- replaced child: the fresh column is visited by the column arm
        have hcv : anyColVisit (exprName (Expr.col n)) st
            = anyColStep n st := by
          unfold anyColVisit
          rw [if_neg (by simp [hflag])]
          rfl
        obtain ⟨rest2, st2, hpr, h1, h2⟩ := truncAnyPairs_main sIdx pIdx cs
          csN (anyColStep n st) (by rw [anyColStep_flag]; exact hflag) hrest
        refine ⟨.col n :: rest2, st2, ?_, ?_, ?_⟩
        · unfold truncAnyPairs
          rw [if_pos hu, hcv]
          dsimp only []
          rw [hpr]
        · intro ht
          unfold esScanList
          rw [esScan_col n]
          exact h1 ht
        · intro ht
          unfold esScanList
          rw [esScan_col n]
          exact h2 ht
      · obtain ⟨c2, st1, hv, hs1, hs2⟩ := truncAny_main sIdx pIdx c st hflag
          (by simpa using hu)
        cases hst1 : st1.isListMap with
        | false =>
          obtain ⟨rest2, st2, hpr, h1, h2⟩ := truncAnyPairs_main sIdx pIdx
            cs csN st1 hst1 hrest
          refine ⟨c2 :: rest2, st2, ?_, ?_, ?_⟩
          · unfold truncAnyPairs
            rw [if_neg (by simp [hu]), hv]
            dsimp only []
            rw [hpr]
          · intro ht
            unfold esScanList
            rw [hs2 hst1]
            exact h1 ht
          · intro ht
            unfold esScanList
            rw [hs2 hst1]
            exact h2 ht
        | true =>
          have hpr := truncAnyPairs_flag_id sIdx pIdx cs csN st1 hst1 hrest
          refine ⟨c2 :: csN, st1, ?_, ?_, ?_⟩
          · unfold truncAnyPairs
            rw [if_neg (by simp [hu]), hv]
            dsimp only []
            rw [hpr]
          · intro _
            unfold esScanList
            rw [hs1 hst1]
          · intro ht
            rw [hst1] at ht
            cases ht
termination_by structural orig

end

theorem not_rootRoute_not_udf (e : Expr)
    (h : isUdfAndShouldTruncateChildren e = false) : isUdf e = false := by
  cases e <;> simp_all [isUdfAndShouldTruncateChildren, isUdf]

theorem splitStep_total (sIdx pIdx : Nat) (e : Expr) (acc : SplitAcc) :
    ∃ acc1, splitStep sIdx pIdx e acc = .ok acc1 := by
  unfold splitStep
  by_cases hroute : isUdfAndShouldTruncateChildren e
  · rw [if_pos hroute]
    exact ⟨_, rfl⟩
  · rw [if_neg hroute]
    by_cases hhas : exprHas isUdf e
    · rw [if_pos hhas]
      obtain ⟨e2, st2, hv, _, _⟩ := truncAny_main sIdx pIdx e
        { newChildren := [], isListMap := false, generated := [] } rfl
        (not_rootRoute_not_udf e (by simpa using hroute))
      rw [show truncAnyRun sIdx pIdx e
        = truncAnyVisit sIdx pIdx e
            { newChildren := [], isListMap := false, generated := [] }
        from rfl, hv]
      exact ⟨_, rfl⟩
    · rw [if_neg hhas]
      exact ⟨_, rfl⟩

theorem splitGo_total (sIdx : Nat) (es : List Expr) :
    ∀ pIdx acc, ∃ acc1, splitGo sIdx pIdx es acc = .ok acc1 := by
  induction es with
  | nil => exact fun pIdx acc => ⟨acc, rfl⟩
  | cons e rest ih =>
    intro pIdx acc
    obtain ⟨accS, hS⟩ := splitStep_total sIdx pIdx e acc
    obtain ⟨accR, hR⟩ := ih (pIdx + 1) accS
    refine ⟨accR, ?_⟩
    unfold splitGo
    rw [hS]
    exact hR

/-- C10: the Child-UDF truncator fails loudly when handed a UDF at the
root — truncAnyRun on any UDF node returns the internal-invariant error
message instead of rewriting — and under split_projection's routing that
branch is unreachable: split_projection succeeds on every projection list
and every stage index. -/
theorem c10_error_unreachable :
    (∀ sIdx pIdx fnId args,
      truncAnyRun sIdx pIdx (.udf fnId args)
        = .error "TruncateAnyUDFChildren should never run on a UDF expression") ∧
    ∀ projection sIdx, (splitProjection projection sIdx).isOk = true := by
  constructor
  · intro sIdx pIdx fnId args
    rfl
  · intro projection sIdx
    obtain ⟨acc1, h1⟩ := splitGo_total sIdx projection 0
      { truncated := [], seenNames := [], newChildren := [], generated := [] }
    unfold splitProjection
    rw [h1]
    rfl

theorem rootReplace_rel (sIdx pIdx : Nat) (args : List Expr) :
    ∀ k st,
      List.Forall₂ rootReplacedChild args (rootReplace sIdx pIdx k args st).1 := by
  induction args with
  | nil => intro k st; exact List.Forall₂.nil
  | cons c cs ih =>
    intro k st
    unfold rootReplace
    by_cases hc : requiresComputation c
    · rw [if_pos hc]
      dsimp only []
      exact List.Forall₂.cons (Or.inl ⟨hc, _, rfl⟩) (ih (k + 1) _)
    · rw [if_neg hc]
      dsimp only []
      exact List.Forall₂.cons (Or.inr ⟨by simpa using hc, rfl⟩) (ih k st)

theorem noComp_countUdf (c : Expr) (h : requiresComputation c = false) :
    countUdf c = 0 := by
  cases c <;> simp_all [requiresComputation, countUdf]

theorem noComp_visit_fst (sIdx pIdx : Nat) (c : Expr) (st : RootSt)
    (h : requiresComputation c = false) :
    (truncRootVisit sIdx pIdx c st).1 = c := by
  cases c <;> simp_all [requiresComputation, truncRootVisit]

theorem rootPairs_noComp (sIdx pIdx : Nat) (orig : List Expr) :
    ∀ news st, List.Forall₂ rootReplacedChild orig news →
      ∀ x ∈ (truncRootPairs sIdx pIdx orig news st).1,
        requiresComputation x = false := by
  induction orig with
  | nil =>
    intro news st hp x hx
    cases hp
    simp [truncRootPairs] at hx
  | cons c cs ih =>
    intro news st hp x hx
    cases news with
    | nil => cases hp
    | cons cN csN =>
      have hrel : rootReplacedChild c cN := by
        cases hp
        assumption
      have hrest : List.Forall₂ rootReplacedChild cs csN := by
        cases hp
        assumption
      rcases hrel with ⟨hc, n, rfl⟩ | ⟨hc, heqN⟩
      · rw [truncRootPairs, if_pos hc] at hx
        dsimp only [] at hx
        rcases List.mem_cons.mp hx with hx | hx
        · subst hx
          rfl
        · exact ih csN _ hrest x hx
      · rw [truncRootPairs, if_neg (by simp [hc])] at hx
        dsimp only [] at hx
        rcases List.mem_cons.mp hx with hx | hx
        · subst hx
          rw [noComp_visit_fst sIdx pIdx c st hc]
          exact hc
        · exact ih csN _ hrest x hx

theorem countUdfList_zero (l : List Expr) (h : ∀ x ∈ l, countUdf x = 0) :
    countUdfList l = 0 := by
  induction l with
  | nil => rfl
  | cons e es ih =>
    rw [countUdfList, h e (by simp), ih fun x hx => h x (by simp [hx])]

theorem truncRoot_out (sIdx pIdx : Nat) (e : Expr) (st : RootSt)
    (h : isUdfAndShouldTruncateChildren e = true) :
    isUdf (stripAlias (truncRootVisit sIdx pIdx e st).1) = true ∧
      countUdf (truncRootVisit sIdx pIdx e st).1 = 1 := by
  cases e with
  | col n => simp [isUdfAndShouldTruncateChildren, isUdf] at h
  | lit v => simp [isUdfAndShouldTruncateChildren, isUdf] at h
  | «alias» inner nm =>
    have h2 : isUdfAndShouldTruncateChildren inner = true := by
      simpa [isUdfAndShouldTruncateChildren] using h
    rcases hv : truncRootVisit sIdx pIdx inner st with ⟨inner2, st1⟩
    have hrec := truncRoot_out sIdx pIdx inner st h2
    rw [hv] at hrec
    rw [truncRootVisit, hv]
    dsimp only []
    exact ⟨by rw [stripAlias]; exact hrec.1, by rw [countUdf]; exact hrec.2⟩
  | scalarFn fnId args =>
    simp [isUdfAndShouldTruncateChildren, isUdf] at h
  | udf fnId args =>
    rcases hrp : rootReplace sIdx pIdx 0 args st with ⟨args1, st1⟩
    have hrel := rootReplace_rel sIdx pIdx args 0 st
    rw [hrp] at hrel
    rcases hpp : truncRootPairs sIdx pIdx args args1 st1 with ⟨args2, st2⟩
    have hnc := rootPairs_noComp sIdx pIdx args args1 st1 hrel
    rw [hpp] at hnc
    rw [truncRootVisit, hrp]
    dsimp only []
    rw [hpp]
    dsimp only []
    refine ⟨rfl, ?_⟩
    rw [countUdf, countUdfList_zero args2
      fun x hx => noComp_countUdf x (hnc x hx)]
  | other op args =>
    simp [isUdfAndShouldTruncateChildren, isUdf] at h
termination_by structural e

theorem truncAny_not_found (sIdx pIdx : Nat) (e e2 : Expr) (st2 : AnySt)
    (hudf : isUdf e = false)
    (hv : truncAnyRun sIdx pIdx e = .ok (e2, st2)) :
    existsSkipListMap isUdf e2 = false := by
  obtain ⟨e2M, st2M, hvM, h1, h2⟩ := truncAny_main sIdx pIdx e
    { newChildren := [], isListMap := false, generated := [] } rfl hudf
  unfold truncAnyRun at hv
  rw [hvM] at hv
  simp only [Except.ok.injEq, Prod.mk.injEq] at hv
  obtain ⟨he, hst⟩ := hv
  subst he
  subst hst
  cases hflag : st2M.isListMap with
  | true => simp [existsSkipListMap, h1 hflag]
  | false => simp [existsSkipListMap, h2 hflag]

theorem mergeChild_truncated (acc : SplitAcc) (nc : Expr) :
    (mergeChild acc nc).truncated = acc.truncated := by
  unfold mergeChild
  split
  · rfl
  · rfl

theorem mergeChildren_truncated (ncs : List Expr) :
    ∀ acc, (mergeChildren acc ncs).truncated = acc.truncated := by
  induction ncs with
  | nil => intro acc; rfl
  | cons nc rest ih =>
    intro acc
    show (mergeChildren (mergeChild acc nc) rest).truncated = acc.truncated
    rw [ih (mergeChild acc nc), mergeChild_truncated]

theorem addRequiredCols_truncated (ns : List String) :
    ∀ acc, ((ns.foldl addRequiredCol acc).truncated = acc.truncated) := by
  induction ns with
  | nil => intro acc; rfl
  | cons n rest ih =>
    intro acc
    show ((rest.foldl addRequiredCol (addRequiredCol acc n)).truncated
      = acc.truncated)
    rw [ih (addRequiredCol acc n)]
    unfold addRequiredCol
    split
    · rfl
    · rfl

theorem splitStep_goodT (sIdx pIdx : Nat) (e : Expr) (acc acc1 : SplitAcc)
    (h : splitStep sIdx pIdx e acc = .ok acc1)
    (hacc : ∀ t ∈ acc.truncated, existsSkipListMap isUdf t = true →
      isUdf (stripAlias t) = true ∧ countUdf t = 1) :
    ∀ t ∈ acc1.truncated, existsSkipListMap isUdf t = true →
      isUdf (stripAlias t) = true ∧ countUdf t = 1 := by
  unfold splitStep at h
  by_cases hroute : isUdfAndShouldTruncateChildren e
  · rw [if_pos hroute] at h
    rcases hrr : truncRootRun sIdx pIdx e with ⟨e2, st⟩
    rw [hrr] at h
    dsimp only [] at h
    simp only [Except.ok.injEq] at h
    subst h
    rw [mergeChildren_truncated]
    intro t ht
    rcases List.mem_append.mp ht with ht | ht
    · exact hacc t ht
    · intro _
      have := truncRoot_out sIdx pIdx e
        { newChildren := [], generated := [] } hroute
      rw [show truncRootVisit sIdx pIdx e { newChildren := [], generated := [] }
        = truncRootRun sIdx pIdx e from rfl, hrr] at this
      simp only [List.mem_singleton] at ht
      subst ht
      exact this
  · rw [if_neg hroute] at h
    by_cases hhas : exprHas isUdf e
    · rw [if_pos hhas] at h
      cases hta : truncAnyRun sIdx pIdx e with
      | error msg =>
        rw [hta] at h
        simp at h
      | ok pr =>
        rcases pr with ⟨e2, st⟩
        rw [hta] at h
        dsimp only [] at h
        simp only [Except.ok.injEq] at h
        subst h
        rw [mergeChildren_truncated]
        intro t ht
        rcases List.mem_append.mp ht with ht | ht
        · exact hacc t ht
        · intro hex
          simp only [List.mem_singleton] at ht
          subst ht
          rw [truncAny_not_found sIdx pIdx e t st
            (not_rootRoute_not_udf e (by simpa using hroute)) hta] at hex
          cases hex
    · rw [if_neg hhas] at h
      dsimp only [] at h
      simp only [Except.ok.injEq] at h
      subst h
      rw [addRequiredCols_truncated]
      intro t ht
      rcases List.mem_append.mp ht with ht | ht
      · exact hacc t ht
      · intro hex
        simp only [List.mem_singleton] at ht
        subst ht
        rw [existsSkipListMap_of_no_udf t (by simpa using hhas)] at hex
        cases hex

theorem splitGo_goodT (sIdx : Nat) (es : List Expr) :
    ∀ pIdx acc acc1, splitGo sIdx pIdx es acc = .ok acc1 →
      (∀ t ∈ acc.truncated, existsSkipListMap isUdf t = true →
        isUdf (stripAlias t) = true ∧ countUdf t = 1) →
      ∀ t ∈ acc1.truncated, existsSkipListMap isUdf t = true →
        isUdf (stripAlias t) = true ∧ countUdf t = 1 := by
  induction es with
  | nil =>
    intro pIdx acc acc1 h hacc
    simp only [splitGo, Except.ok.injEq] at h
    subst h
    exact hacc
  | cons e rest ih =>
    intro pIdx acc acc1 h hacc
    unfold splitGo at h
    cases hS : splitStep sIdx pIdx e acc with
    | error msg =>
      rw [hS] at h
      simp at h
    | ok accS =>
      rw [hS] at h
      dsimp only [] at h
      exact ih (pIdx + 1) accS acc1 h (splitStep_goodT sIdx pIdx e acc accS hS hacc)

theorem splitProjection_goodT (projection : List Expr) (sIdx : Nat)
    (trunc remaining : List Expr) (gen : List String)
    (h : splitProjection projection sIdx = .ok (trunc, remaining, gen)) :
    ∀ t ∈ trunc, existsSkipListMap isUdf t = true →
      isUdf (stripAlias t) = true ∧ countUdf t = 1 := by
  unfold splitProjection at h
  cases hgo : splitGo sIdx 0 projection
      { truncated := [], seenNames := [], newChildren := [], generated := [] } with
  | error msg =>
    rw [hgo] at h
    simp at h
  | ok acc =>
    rw [hgo] at h
    dsimp only [] at h
    simp only [Except.ok.injEq, Prod.mk.injEq] at h
    obtain ⟨h1, _, _⟩ := h
    rw [← h1]
    exact splitGo_goodT sIdx projection 0 _ acc hgo (by intro t ht _; simp at ht)

theorem udfTryNew_ok_shape (input : LogicalPlan) (pe : Expr)
    (pt : List Expr) (q : LogicalPlan)
    (h : UDFProject.tryNew input pe pt = .ok q) :
    q = .udfProject input pe pt := by
  unfold UDFProject.tryNew at h
  split at h
  · simpa using h.symm
  · exact absurd h (by simp)

theorem passthrough_all_col (names : List String) (e : Expr) :
    (((names.map Expr.col).filter
      (fun c => exprName c != exprName e)).all isColExpr) = true := by
  simp only [List.all_eq_true]
  intro c hc
  have hc1 := (List.mem_filter.mp hc).1
  obtain ⟨n, _, rfl⟩ := List.mem_map.mp hc1
  rfl

theorem buildUdfChain_udfProjects (stages : List Expr) :
    ∀ child q, buildUdfChain stages child = .ok q →
      (∀ t ∈ stages, isUdf (stripAlias t) = true ∧ countUdf t = 1) →
      (∀ pr ∈ planUdfProjects child, goodUdfStage pr = true) →
      ∀ pr ∈ planUdfProjects q, goodUdfStage pr = true := by
  induction stages with
  | nil =>
    intro child q h _ hchild
    simp only [buildUdfChain, Except.ok.injEq] at h
    subst h
    exact hchild
  | cons e rest ih =>
    intro child q h hstages hchild
    unfold buildUdfChain at h
    dsimp only [] at h
    cases hnode : UDFProject.tryNew child e
        (((schemaNames child).map Expr.col).filter
          (fun c => exprName c != exprName e)) with
    | error msg =>
      rw [hnode] at h
      simp at h
    | ok node =>
      rw [hnode] at h
      dsimp only [] at h
      have hsh := udfTryNew_ok_shape _ _ _ _ hnode
      subst hsh
      refine ih _ q h (fun t ht => hstages t (by simp [ht])) ?_
      intro pr hpr
      rw [planUdfProjects] at hpr
      rcases List.mem_cons.mp hpr with hpr | hpr
      · subst hpr
        have hg := hstages e (by simp)
        simp [goodUdfStage, hg.1, hg.2]
        intro a _
        exact Or.inr rfl
      · exact hchild pr hpr

theorem assembleStages_udfProjects (pExprs truncatedExprs : List Expr)
    (npc : LogicalPlan) (q : LogicalPlan)
    (h : assembleStages pExprs truncatedExprs npc = .ok q)
    (htr : ∀ t ∈ truncatedExprs, existsSkipListMap isUdf t = true →
      isUdf (stripAlias t) = true ∧ countUdf t = 1)
    (hnpc : ∀ pr ∈ planUdfProjects npc, goodUdfStage pr = true) :
    ∀ pr ∈ planUdfProjects q, goodUdfStage pr = true := by
  unfold assembleStages at h
  dsimp only [] at h
  split at h
  · simp at h
  · rename_i newPlan1 hp1
    split at h
    · simp at h
    · rename_i newPlan2 hchain
      have hq := tryNew_ok_shape _ _ _ h
      subst hq
      intro pr hpr
      rw [planUdfProjects] at hpr
      have hstages : ∀ t ∈ (truncatedExprs.partition
          (fun e => existsSkipListMap isUdf e)).1,
          isUdf (stripAlias t) = true ∧ countUdf t = 1 := by
        intro t ht
        rw [List.partition_eq_filter_filter] at ht
        have hm := List.mem_filter.mp ht
        exact htr t hm.1 hm.2
      have hsh1 := tryNew_ok_shape _ _ _ hp1
      subst hsh1
      refine buildUdfChain_udfProjects _ _ _ hchain hstages ?_ pr hpr
      intro pr2 hpr2
      rw [planUdfProjects] at hpr2
      exact hnpc pr2 hpr2

theorem recOpt_udfProjects (fuel : Nat) (pInput : LogicalPlan)
    (pExprs : List Expr) (plan : LogicalPlan) (c : Nat) (b : Bool)
    (q : LogicalPlan) (g : List String)
    (h : recursiveOptimizeProject fuel pInput pExprs plan c = .ok (b, q, g))
    (hin : ∀ pr ∈ planUdfProjects pInput, goodUdfStage pr = true)
    (hplan : ∀ pr ∈ planUdfProjects plan, goodUdfStage pr = true) :
    ∀ pr ∈ planUdfProjects q, goodUdfStage pr = true := by
  match fuel with
  | 0 => simp [recursiveOptimizeProject] at h
  | fuel + 1 =>
    unfold recursiveOptimizeProject at h
    by_cases hb : pExprs.any (fun e => existsSkipListMap isUdf e)
    · rw [if_pos hb] at h
      split at h
      · simp at h
      · rename_i tr rem gen1 hsplit
        have htr := splitProjection_goodT pExprs c tr rem gen1 hsplit
        cases hc : rem.all isColExpr with
        | true =>
          simp only [hc, if_true] at h
          split at h
          · simp at h
          · rename_i finalPlan hasm
            simp only [Except.ok.injEq, Prod.mk.injEq] at h
            rw [← h.2.1]
            exact assembleStages_udfProjects pExprs tr pInput finalPlan hasm
              htr hin
        | false =>
          simp only [hc, Bool.false_eq_true, if_false] at h
          split at h
          · simp at h
          · rename_i npc gen2 hstep2
            split at h
            · simp at h
            · rename_i finalPlan hasm
              simp only [Except.ok.injEq, Prod.mk.injEq] at h
              rw [← h.2.1]
              split at hstep2
              · simp at hstep2
              · rename_i ncp hncp
                split at hstep2
                · simp at hstep2
                · rename_i bR childData gen2R hrec
                  simp only [Except.ok.injEq, Prod.mk.injEq] at hstep2
                  obtain ⟨hnpcEq, _⟩ := hstep2
                  subst hnpcEq
                  have hshape := tryNew_ok_shape _ _ _ hncp
                  subst hshape
                  have hchild := recOpt_udfProjects fuel pInput rem
                    (.project pInput rem) (c + 1) bR childData gen2R hrec hin
                    (by rw [planUdfProjects]; exact hin)
                  exact assembleStages_udfProjects pExprs tr childData
                    finalPlan hasm htr hchild
    · rw [if_neg hb] at h
      simp only [Except.ok.injEq, Prod.mk.injEq] at h
      rw [← h.2.1]
      exact hplan
termination_by structural fuel

theorem tryOpt_udfProjects (fuel : Nat) (pInput : LogicalPlan)
    (pExprs : List Expr) (plan : LogicalPlan) (b : Bool) (q : LogicalPlan)
    (g : List String)
    (h : tryOptimizeProject fuel pInput pExprs plan = .ok (b, q, g))
    (hin : ∀ pr ∈ planUdfProjects pInput, goodUdfStage pr = true)
    (hplan : ∀ pr ∈ planUdfProjects plan, goodUdfStage pr = true) :
    ∀ pr ∈ planUdfProjects q, goodUdfStage pr = true := by
  obtain ⟨ap, _, hrec⟩ := tryOpt_inv fuel pInput pExprs plan b q g h
  exact recOpt_udfProjects fuel pInput (pExprs.map aliasEntry) plan 0 b q g
    hrec hin hplan

mutual

theorem transform_udfProjects (fuel : Nat) (p q : LogicalPlan)
    (g : List String) (h : transformDownSplit fuel p = .ok (q, g))
    (hin : ∀ pr ∈ planUdfProjects p, goodUdfStage pr = true) :
    ∀ pr ∈ planUdfProjects q, goodUdfStage pr = true := by
  match fuel with
  | 0 => simp [transformDownSplit] at h
  | fuel + 1 =>
    cases p with
    | project pInput pExprs =>
      unfold transformDownSplit at h
      dsimp only [] at h
      split at h
      · simp at h
      · rename_i npc gen1 htop
        split at htop
        · simp at htop
        · rename_i fst node2 gen htop2
          simp only [Except.ok.injEq, Prod.mk.injEq] at htop
          obtain ⟨hnode, hgen⟩ := htop
          subst hnode
          subst hgen
          have hnode2 : ∀ pr ∈ planUdfProjects node2,
              goodUdfStage pr = true :=
            tryOpt_udfProjects fuel pInput pExprs (.project pInput pExprs)
              fst node2 gen htop2
              (by intro pr hpr; exact hin pr (by rwa [planUdfProjects]))
              hin
          split at h
          · rename_i fields
            simp only [Except.ok.injEq, Prod.mk.injEq] at h
            rw [← h.1]
            intro pr hpr
            simp [planUdfProjects] at hpr
          · rename_i i2 es2
            split at h
            · simp at h
            · rename_i i2t g2 hrec
              simp only [Except.ok.injEq, Prod.mk.injEq] at h
              rw [← h.1]
              intro pr hpr
              rw [planUdfProjects] at hpr
              exact transform_udfProjects fuel i2 i2t g2 hrec
                (by intro pr2 hpr2
                    exact hnode2 pr2 (by rwa [planUdfProjects])) pr hpr
          · rename_i i2 pe pass
            split at h
            · simp at h
            · rename_i i2t g2 hrec
              simp only [Except.ok.injEq, Prod.mk.injEq] at h
              rw [← h.1]
              intro pr hpr
              rw [planUdfProjects] at hpr
              rcases List.mem_cons.mp hpr with hpr | hpr
              · subst hpr
                exact hnode2 _ (by rw [planUdfProjects]; exact List.mem_cons_self _ _)
              · exact transform_udfProjects fuel i2 i2t g2 hrec
                  (by intro pr2 hpr2
                      exact hnode2 pr2
                        (by rw [planUdfProjects]
                            exact List.mem_cons_of_mem _ hpr2)) pr hpr
          · rename_i nm fields children
            split at h
            · simp at h
            · rename_i cs2 g2 hrec
              simp only [Except.ok.injEq, Prod.mk.injEq] at h
              rw [← h.1]
              intro pr hpr
              rw [planUdfProjects] at hpr
              exact transformChildren_udfProjects fuel children cs2 g2 hrec
                (by intro pr2 hpr2
                    exact hnode2 pr2 (by rwa [planUdfProjects])) pr hpr
    | source fields =>
      unfold transformDownSplit at h
      dsimp only [] at h
      simp only [Except.ok.injEq, Prod.mk.injEq] at h
      rw [← h.1]
      intro pr hpr
      simp [planUdfProjects] at hpr
    | udfProject pInput pe pass =>
      unfold transformDownSplit at h
      dsimp only [] at h
      split at h
      · simp at h
      · rename_i i2t g2 hrec
        simp only [Except.ok.injEq, Prod.mk.injEq] at h
        rw [← h.1]
        intro pr hpr
        rw [planUdfProjects] at hpr
        rcases List.mem_cons.mp hpr with hpr | hpr
        · subst hpr
          exact hin _ (by rw [planUdfProjects]; exact List.mem_cons_self _ _)
        · exact transform_udfProjects fuel pInput i2t g2 hrec
            (by intro pr2 hpr2
                exact hin pr2
                  (by rw [planUdfProjects]
                      exact List.mem_cons_of_mem _ hpr2)) pr hpr
    | generic nm fields children =>
      unfold transformDownSplit at h
      dsimp only [] at h
      split at h
      · simp at h
      · rename_i cs2 g2 hrec
        simp only [Except.ok.injEq, Prod.mk.injEq] at h
        rw [← h.1]
        intro pr hpr
        rw [planUdfProjects] at hpr
        exact transformChildren_udfProjects fuel children cs2 g2 hrec
          (by intro pr2 hpr2; exact hin pr2 (by rwa [planUdfProjects])) pr hpr
termination_by structural fuel

theorem transformChildren_udfProjects (fuel : Nat) (cs cs2 : List LogicalPlan)
    (g : List String) (h : transformDownChildren fuel cs = .ok (cs2, g))
    (hin : ∀ pr ∈ planUdfProjectsList cs, goodUdfStage pr = true) :
    ∀ pr ∈ planUdfProjectsList cs2, goodUdfStage pr = true := by
  match fuel with
  | 0 => simp [transformDownChildren] at h
  | fuel + 1 =>
    cases cs with
    | nil =>
      unfold transformDownChildren at h
      dsimp only [] at h
      simp only [Except.ok.injEq, Prod.mk.injEq] at h
      rw [← h.1]
      intro pr hpr
      simp [planUdfProjectsList] at hpr
    | cons c rest =>
      unfold transformDownChildren at h
      dsimp only [] at h
      split at h
      · simp at h
      · rename_i c2 g1 hc
        split at h
        · simp at h
        · rename_i rest2 g2 hrest
          simp only [Except.ok.injEq, Prod.mk.injEq] at h
          rw [← h.1]
          intro pr hpr
          rw [planUdfProjectsList] at hpr
          rcases List.mem_append.mp hpr with hpr | hpr
          · exact transform_udfProjects fuel c c2 g1 hc
              (by intro pr2 hpr2
                  exact hin pr2
                    (by rw [planUdfProjectsList]
                        exact List.mem_append_left _ hpr2)) pr hpr
          · exact transformChildren_udfProjects fuel rest rest2 g2 hrest
              (by intro pr2 hpr2
                  exact hin pr2
                    (by rw [planUdfProjectsList]
                        exact List.mem_append_right _ hpr2)) pr hpr
termination_by structural fuel

end

/-- C2: on any input plan whose existing UDFProject nodes already satisfy
the stage invariant, every UDFProject node of the plan returned by
rewrite_plan carries exactly one UDF in its expression, at the root once
aliases are stripped, and a passthrough list of bare column references.
The hypothesis on the input is needed because the pass never inspects an
already-present UDFProject node, and the stage invariant of the spec's
data model (section 3) is what the pass's own outputs satisfy. -/
theorem c2_one_udf_per_stage (fuel : Nat) (p q : LogicalPlan)
    (g : List String) (h : rewritePlan fuel p = .ok (q, g))
    (hin : ∀ pr ∈ planUdfProjects p, goodUdfStage pr = true) :
    ∀ pr ∈ planUdfProjects q, goodUdfStage pr = true :=
  transform_udfProjects fuel p q g h hin

/-- Witness for C2 at a concrete plan: a projection with one aliased UDF is
rewritten into a chain whose single UDFProject stage satisfies the
invariant. -/
theorem c2_one_udf_per_stage_witness :
    rewritePlan 5 planW = .ok (planWOut, []) ∧
      (∀ pr ∈ planUdfProjects planW, goodUdfStage pr = true) ∧
      ∀ pr ∈ planUdfProjects planWOut, goodUdfStage pr = true := by
  refine ⟨rfl, by decide, ?_⟩
  exact c2_one_udf_per_stage 5 planW planWOut [] rfl (by decide)

theorem rootColStep_generated (n : String) (st : RootSt) :
    (rootColStep n st).generated = st.generated := by
  unfold rootColStep
  split
  · rfl
  · rfl

theorem noComp_visit_generated (sIdx pIdx : Nat) (c : Expr) (st : RootSt)
    (h : requiresComputation c = false) :
    (truncRootVisit sIdx pIdx c st).2.generated = st.generated := by
  cases c with
  | col n =>
    rw [truncRootVisit]
    exact rootColStep_generated n st
  | lit v => rfl
  | «alias» i nm => simp [requiresComputation] at h
  | scalarFn f args => simp [requiresComputation] at h
  | udf f args => simp [requiresComputation] at h
  | other op args => simp [requiresComputation] at h

theorem rootReplace_generated (sIdx pIdx : Nat) (args : List Expr) :
    ∀ k st, (rootReplace sIdx pIdx k args st).2.generated
      = st.generated ++
          (List.range' k (args.countP requiresComputation)).map
            (rootIntermediateName sIdx pIdx) := by
  induction args with
  | nil =>
    intro k st
    simp [rootReplace]
  | cons c cs ih =>
    intro k st
    unfold rootReplace
    by_cases hc : requiresComputation c
    · rw [if_pos hc]
      dsimp only []
      rcases hr : rootReplace sIdx pIdx (k + 1) cs
          { st with
            newChildren := st.newChildren ++
              [Expr.alias c (rootIntermediateName sIdx pIdx k)],
            generated := st.generated ++ [rootIntermediateName sIdx pIdx k] }
        with ⟨rest, st2⟩
      dsimp only []
      have hih := ih (k + 1)
        { st with
          newChildren := st.newChildren ++
            [Expr.alias c (rootIntermediateName sIdx pIdx k)],
          generated := st.generated ++ [rootIntermediateName sIdx pIdx k] }
      rw [hr] at hih
      rw [hih]
      simp [List.countP_cons, hc, List.range'_succ]
    · rw [if_neg hc]
      dsimp only []
      rcases hr : rootReplace sIdx pIdx k cs st with ⟨rest, st2⟩
      dsimp only []
      have hih := ih k st
      rw [hr] at hih
      rw [hih]
      simp [List.countP_cons, hc]

theorem anyReplace_generated (sIdx pIdx : Nat) (args : List Expr) :
    ∀ k st, (anyReplace sIdx pIdx k args st).2.generated
      = st.generated ++
          (List.range' k (args.countP isUdf)).map
            (anyIntermediateName sIdx pIdx) := by
  induction args with
  | nil =>
    intro k st
    simp [anyReplace]
  | cons c cs ih =>
    intro k st
    unfold anyReplace
    by_cases hc : isUdf c
    · rw [if_pos hc]
      dsimp only []
      rcases hr : anyReplace sIdx pIdx (k + 1) cs
          { st with
            newChildren := st.newChildren ++
              [Expr.alias c (anyIntermediateName sIdx pIdx k)],
            generated := st.generated ++ [anyIntermediateName sIdx pIdx k] }
        with ⟨rest, st2⟩
      dsimp only []
      have hih := ih (k + 1)
        { st with
          newChildren := st.newChildren ++
            [Expr.alias c (anyIntermediateName sIdx pIdx k)],
          generated := st.generated ++ [anyIntermediateName sIdx pIdx k] }
      rw [hr] at hih
      rw [hih]
      simp [List.countP_cons, hc, List.range'_succ]
    · rw [if_neg hc]
      dsimp only []
      rcases hr : anyReplace sIdx pIdx k cs st with ⟨rest, st2⟩
      dsimp only []
      have hih := ih k st
      rw [hr] at hih
      rw [hih]
      simp [List.countP_cons, hc]

theorem rootPairs_generated (sIdx pIdx : Nat) (orig : List Expr) :
    ∀ news st, List.Forall₂ rootReplacedChild orig news →
      (truncRootPairs sIdx pIdx orig news st).2.generated
        = st.generated := by
  induction orig with
  | nil =>
    intro news st hp
    cases hp
    rfl
  | cons c cs ih =>
    intro news st hp
    cases news with
    | nil => cases hp
    | cons cN csN =>
      have hrel : rootReplacedChild c cN := by
        cases hp
        assumption
      have hrest : List.Forall₂ rootReplacedChild cs csN := by
        cases hp
        assumption
      rcases hrel with ⟨hc, n, rfl⟩ | ⟨hc, -⟩
      · rw [truncRootPairs, if_pos hc]
        dsimp only []
        rcases hq : truncRootPairs sIdx pIdx cs csN
            (rootColStep (exprName (Expr.col n)) st) with ⟨rest, st2⟩
        dsimp only []
        have hih := ih csN (rootColStep (exprName (Expr.col n)) st) hrest
        rw [hq] at hih
        rw [hih, rootColStep_generated]
      · rw [truncRootPairs, if_neg (by simp [hc])]
        dsimp only []
        rcases hv : truncRootVisit sIdx pIdx c st with ⟨c2, st1⟩
        dsimp only []
        rcases hq : truncRootPairs sIdx pIdx cs csN st1 with ⟨rest, st2⟩
        dsimp only []
        have hih := ih csN st1 hrest
        rw [hq] at hih
        rw [hih]
        have hng := noComp_visit_generated sIdx pIdx c st hc
        rw [hv] at hng
        exact hng

/-- C4 counterexample to the name grammar as the spec reads it: in the code,
k is the zero-based index among the lifted children only, not the argument
index.  For the root truncator a UDF with a bare first argument and a
computation-bearing second argument lifts that second argument under k = 0,
where the spec's argument-index reading demands k = 1. -/
theorem c4_counterexample :
    (truncRootRun 0 0 exprC4).2.generated = ["__TruncateRootUDF_0-0-0__"] ∧
      "__TruncateRootUDF_0-0-0__" ≠ "__TruncateRootUDF_0-0-1__" := by
  constructor
  · rfl
  · decide

/-- C4 (amended): the names generated by one run of TruncateRootUDF on a
root UDF are exactly __TruncateRootUDF_{s}-{p}-{k}__ for k ranging over the
count of computation-bearing arguments, in order — k is the running index
among the lifted children, not the argument position; and the names
generated by the child-replacement map of TruncateAnyUDFChildren are
exactly __TruncateAnyUDFChildren_{s}-{p}-{k}__ for k ranging over the count
of UDF-rooted arguments. -/
theorem c4_amended (sIdx pIdx : Nat) (fnId : String) (args : List Expr)
    (st : AnySt) :
    ((truncRootRun sIdx pIdx (.udf fnId args)).2.generated
      = (List.range (args.countP requiresComputation)).map
          (rootIntermediateName sIdx pIdx)) ∧
    ((anyReplace sIdx pIdx 0 args st).2.generated
      = st.generated ++
          (List.range (args.countP isUdf)).map
            (anyIntermediateName sIdx pIdx)) := by
  constructor
  · unfold truncRootRun
    rw [truncRootVisit]
    dsimp only []
    rcases hrp : rootReplace sIdx pIdx 0 args
        { newChildren := [], generated := [] } with ⟨args1, st1⟩
    dsimp only []
    rcases hpp : truncRootPairs sIdx pIdx args args1 st1 with ⟨args2, st2⟩
    dsimp only []
    have hrel := rootReplace_rel sIdx pIdx args 0
      { newChildren := [], generated := [] }
    rw [hrp] at hrel
    have hpg := rootPairs_generated sIdx pIdx args args1 st1 hrel
    rw [hpp] at hpg
    rw [hpg]
    have hg := rootReplace_generated sIdx pIdx args 0
      { newChildren := [], generated := [] }
    rw [hrp] at hg
    rw [hg]
    simp [List.range_eq_range']
  · rw [anyReplace_generated sIdx pIdx args 0 st, List.range_eq_range']

theorem mergeChild_generated (acc : SplitAcc) (nc : Expr) :
    (mergeChild acc nc).generated = acc.generated := by
  unfold mergeChild
  split
  · rfl
  · rfl

theorem mergeChildren_generated (ncs : List Expr) :
    ∀ acc, (mergeChildren acc ncs).generated = acc.generated := by
  induction ncs with
  | nil => intro acc; rfl
  | cons nc rest ih =>
    intro acc
    show (mergeChildren (mergeChild acc nc) rest).generated = acc.generated
    rw [ih (mergeChild acc nc), mergeChild_generated]

theorem addRequiredCol_generated (acc : SplitAcc) (n : String) :
    (addRequiredCol acc n).generated = acc.generated := by
  unfold addRequiredCol
  split
  · rfl
  · rfl

theorem addRequiredCols_generated (ns : List String) :
    ∀ acc, ((ns.foldl addRequiredCol acc).generated = acc.generated) := by
  induction ns with
  | nil => intro acc; rfl
  | cons n rest ih =>
    intro acc
    show ((rest.foldl addRequiredCol (addRequiredCol acc n)).generated
      = acc.generated)
    rw [ih (addRequiredCol acc n), addRequiredCol_generated]

theorem addRequiredCol_seen_mono (acc : SplitAcc) (m x : String)
    (h : x ∈ acc.seenNames) : x ∈ (addRequiredCol acc m).seenNames := by
  unfold addRequiredCol
  split
  · exact h
  · simp [h]

theorem addRequiredCol_new_mono (acc : SplitAcc) (m : String) (nc : Expr)
    (h : nc ∈ acc.newChildren) : nc ∈ (addRequiredCol acc m).newChildren := by
  unfold addRequiredCol
  split
  · exact h
  · simp [h]

theorem addRequiredCols_seen_mono (ns : List String) :
    ∀ acc x, x ∈ acc.seenNames →
      x ∈ (ns.foldl addRequiredCol acc).seenNames := by
  induction ns with
  | nil => intro acc x h; exact h
  | cons n rest ih =>
    intro acc x h
    exact ih (addRequiredCol acc n) x (addRequiredCol_seen_mono acc n x h)

theorem addRequiredCols_new_mono (ns : List String) :
    ∀ acc nc, nc ∈ acc.newChildren →
      nc ∈ (ns.foldl addRequiredCol acc).newChildren := by
  induction ns with
  | nil => intro acc nc h; exact h
  | cons n rest ih =>
    intro acc nc h
    exact ih (addRequiredCol acc n) nc (addRequiredCol_new_mono acc n nc h)

theorem addRequiredCol_self (acc : SplitAcc) (m : String) :
    m ∈ (addRequiredCol acc m).seenNames ∧
      (m ∈ acc.seenNames ∨
        Expr.col m ∈ (addRequiredCol acc m).newChildren) := by
  unfold addRequiredCol
  split
  · rename_i hcon
    have hm : m ∈ acc.seenNames := by simpa using hcon
    exact ⟨hm, Or.inl hm⟩
  · constructor
    · simp
    · right
      simp

theorem addRequiredCols_mem (ns : List String) :
    ∀ acc n, n ∈ ns →
      n ∈ (ns.foldl addRequiredCol acc).seenNames ∧
        (n ∈ acc.seenNames ∨
          Expr.col n ∈ (ns.foldl addRequiredCol acc).newChildren) := by
  induction ns with
  | nil =>
    intro acc n h
    cases h
  | cons m rest ih =>
    intro acc n h
    rw [List.foldl_cons]
    rcases List.mem_cons.mp h with h | h
    · subst h
      obtain ⟨h1, h2⟩ := addRequiredCol_self acc n
      refine ⟨addRequiredCols_seen_mono rest _ _ h1, ?_⟩
      rcases h2 with h2 | h2
      · exact Or.inl h2
      · exact Or.inr (addRequiredCols_new_mono rest _ _ h2)
    · obtain ⟨h1, h2⟩ := ih (addRequiredCol acc m) n h
      refine ⟨h1, ?_⟩
      rcases h2 with h2 | h2
      · unfold addRequiredCol at h2
        split at h2
        · exact Or.inl h2
        · rename_i hcon
          simp only [List.mem_append, List.mem_singleton] at h2
          rcases h2 with h2 | h2
          · exact Or.inl h2
          · subst h2
            right
            apply addRequiredCols_new_mono rest
            unfold addRequiredCol
            rw [if_neg hcon]
            simp
      · exact Or.inr h2

/-- C6 is wrong about the routing predicate: the splitter routes through a
plain pre-order UDF search with no list_map skipping.  On an aliased
list_map over a UDF the spec predicate is false, so the spec demands the
unchanged branch with its required-column collection, yet the code invokes
the Child-UDF truncator, which returns the expression unchanged with no
collected children: the required column a never reaches remaining. -/
theorem c6_counterexample :
    existsSkippingSpec isUdf exprC6 = false ∧
      exprHas isUdf exprC6 = true ∧
      isUdfAndShouldTruncateChildren exprC6 = false ∧
      splitProjection [exprC6] 0 = .ok ([exprC6], [], []) ∧
      getRequiredColumns exprC6 = ["a"] := by
  exact ⟨rfl, rfl, rfl, rfl, rfl⟩

/-- C6 (amended): for an expression not selected for root-UDF truncation,
the splitter invokes the Child-UDF truncator exactly when a plain pre-order
search finds a UDF anywhere in the expression, with no special treatment of
list_map; only when that plain search fails is the expression pushed into
truncated unchanged, with Column(n) appended to the new children for each
not-yet-seen required column name n. -/
theorem c6_amended (sIdx pIdx : Nat) (e : Expr) (acc acc1 : SplitAcc)
    (h : splitStep sIdx pIdx e acc = .ok acc1)
    (hroot : isUdfAndShouldTruncateChildren e = false) :
    (exprHas isUdf e = true →
      ∃ e2 st, truncAnyRun sIdx pIdx e = .ok (e2, st) ∧
        acc1.truncated = acc.truncated ++ [e2] ∧
        acc1.generated = acc.generated ++ st.generated) ∧
    (exprHas isUdf e = false →
      acc1.truncated = acc.truncated ++ [e] ∧
      acc1.generated = acc.generated ∧
      ∀ n ∈ getRequiredColumns e, n ∈ acc1.seenNames ∧
        (n ∈ acc.seenNames ∨ Expr.col n ∈ acc1.newChildren)) := by
  unfold splitStep at h
  rw [if_neg (by simp [hroot])] at h
  constructor
  · intro hhas
    rw [if_pos hhas] at h
    cases hta : truncAnyRun sIdx pIdx e with
    | error msg =>
      rw [hta] at h
      simp at h
    | ok pr =>
      rcases pr with ⟨e2, st⟩
      rw [hta] at h
      dsimp only [] at h
      simp only [Except.ok.injEq] at h
      subst h
      exact ⟨e2, st, rfl, by rw [mergeChildren_truncated],
        by rw [mergeChildren_generated]⟩
  · intro hhas
    rw [if_neg (by simp [hhas])] at h
    dsimp only [] at h
    simp only [Except.ok.injEq] at h
    subst h
    refine ⟨by rw [addRequiredCols_truncated], by rw [addRequiredCols_generated], ?_⟩
    intro n hn
    exact addRequiredCols_mem (getRequiredColumns e) _ n hn

/-- Witness for C6 at the aliased list_map over a UDF: the plain search
finds the UDF, so the truncator branch is taken and returns the expression
unchanged with no generated names. -/
theorem c6_amended_witness :
    splitStep 0 0 exprC6 (SplitAcc.mk [] [] [] [])
      = .ok (SplitAcc.mk [exprC6] [] [] []) ∧
    isUdfAndShouldTruncateChildren exprC6 = false ∧
    ((exprHas isUdf exprC6 = true →
      ∃ e2 st, truncAnyRun 0 0 exprC6 = .ok (e2, st) ∧
        (SplitAcc.mk [exprC6] [] [] []).truncated
          = (SplitAcc.mk [] [] [] []).truncated ++ [e2] ∧
        (SplitAcc.mk [exprC6] [] [] []).generated
          = (SplitAcc.mk [] [] [] []).generated ++ st.generated) ∧
    (exprHas isUdf exprC6 = false →
      (SplitAcc.mk [exprC6] [] [] []).truncated
        = (SplitAcc.mk [] [] [] []).truncated ++ [exprC6] ∧
      (SplitAcc.mk [exprC6] [] [] []).generated
        = (SplitAcc.mk [] [] [] []).generated ∧
      ∀ n ∈ getRequiredColumns exprC6,
        n ∈ (SplitAcc.mk [exprC6] [] [] []).seenNames ∧
          (n ∈ (SplitAcc.mk [] [] [] []).seenNames ∨
            Expr.col n ∈ (SplitAcc.mk [exprC6] [] [] []).newChildren))) :=
  ⟨rfl, rfl,
    c6_amended 0 0 exprC6 (SplitAcc.mk [] [] [] [])
      (SplitAcc.mk [exprC6] [] [] []) rfl rfl⟩

/-- C7 is wrong about the aliasing predicate: on a bare list_map over a
UDF the spec predicate exists_skipping_list_map is false, so the spec says
the expression is left as-is, yet the driver wraps it in an alias because
its routing uses a plain UDF search with no list_map skipping. -/
theorem c7_counterexample :
    existsSkippingSpec isUdf exprC7 = false ∧
      isAlias exprC7 = false ∧
      aliasEntry exprC7 = .alias exprC7 "a" := by
  exact ⟨rfl, rfl, rfl⟩

/-- C7 (amended): the driver wraps e as Alias(e, e.name) exactly when a
plain pre-order search finds a UDF anywhere in e — including beneath a
list_map — and e is not already an alias; otherwise e is left as-is. -/
theorem c7_amended (e : Expr) :
    (exprHas isUdf e = true ∧ isAlias e = false →
      aliasEntry e = .alias e (exprName e)) ∧
    (exprHas isUdf e = false ∨ isAlias e = true →
      aliasEntry e = e) := by
  constructor
  · rintro ⟨h1, h2⟩
    unfold aliasEntry
    rw [if_pos (by simp [h1, h2])]
  · intro h
    unfold aliasEntry
    rcases h with h | h
    · rw [if_neg (by simp [h])]
    · rw [if_neg (by simp [h])]

/-- Witness for C7 at the bare list_map over a UDF: the plain search finds
the UDF and the expression is not an alias, so it is wrapped under its own
name. -/
theorem c7_amended_witness :
    (exprHas isUdf exprC7 = true ∧ isAlias exprC7 = false →
      aliasEntry exprC7 = .alias exprC7 (exprName exprC7)) ∧
    (exprHas isUdf exprC7 = false ∨ isAlias exprC7 = true →
      aliasEntry exprC7 = exprC7) :=
  c7_amended exprC7

/-- C3 fails on the code: within one expression, two UDF children lifted at
different tree nodes of the same stage and expression position receive the
same generated name, because the lifted-child counter is a local variable
of f_down in TruncateAnyUDFChildren and restarts at zero at every tree
node.  On a projection of add(neg(foo(a)), goo(b)) one rewrite_plan
invocation generates __TruncateAnyUDFChildren_0-0-0__ twice. -/
theorem c3_duplicate_names :
    (rewritePlan 20 planC3).toOption.map Prod.snd
      = some ["__TruncateAnyUDFChildren_0-0-0__",
              "__TruncateAnyUDFChildren_0-0-0__"] ∧
      ¬ (["__TruncateAnyUDFChildren_0-0-0__",
          "__TruncateAnyUDFChildren_0-0-0__"] : List String).Nodup := by
  exact ⟨rfl, by decide⟩

/-- C8 fails on the code: a list_map subtree sitting inside a lifted UDF
child is destroyed by the pass.  In planC8 the child goo(b) is lifted
first under __TruncateAnyUDFChildren_0-0-0__; the child foo(list_map(a)),
lifted at a deeper tree node whose counter restarted at zero, collides on
the same name and is dropped by the seen-name filter, so the list_map
survives nowhere in the output plan. -/
theorem c8_list_map_destroyed :
    lmC8 ∈ planLmSubtrees planC8 ∧
      (rewritePlan 25 planC8).toOption.map
        (fun r => decide (lmC8 ∈ planLmSubtrees r.1)) = some false := by
  exact ⟨by decide, rfl⟩

end DaftSplit
